import Mathlib

/-!
The cookies.txt parser of `cmd/cookietxt.go`.

A shallow embedding of `Parse`, `ParseLine` and `parseBool`, together with the
parts of the Go standard library they call (`strings.Fields`,
`strings.TrimSpace`, `strings.HasPrefix`, `strings.ToUpper`,
`strconv.ParseInt`, `bufio.Scanner`).

Modelling conventions.
* A Go `string` is a Lean `String`: the text is taken to be valid UTF-8, so a
  rune is a `Char`; `len(s)` is `String.utf8ByteSize`.
* A pointer `*http.Cookie` is an `Option Cookie` (`none` is `nil`); an `error`
  result is an `Option` of an error value (`none` is `nil`).
* A run-time panic (index or slice out of range) is the `Except.error` outcome.
* The input stream is what `bufio.Scanner` makes of it: the lines it yields and
  the value of `scanner.Err()` once `Scan` has returned false.
* The line counter of `Parse` is a `Nat`: a Go `int` would need more than
  `2^62` lines to overflow.
* The Unicode upper-case tables for runes above `MaxASCII` are a parameter
  `upperCase` of the parser.
-/

namespace Cookiestxt

/-! ## Go run-time and standard library -/

/-- Run-time panics the parser could raise. -/
inductive Panic where
  | indexOutOfRange (index len : Nat)
  | sliceOutOfRange (index len : Nat)
  deriving DecidableEq, Repr

namespace unicode

/-- Go `unicode.IsSpace`: the Latin-1 spaces and the `White_Space` table. -/
def IsSpace (r : Char) : Bool :=
  let n := r.toNat
  -- '\t', '\n', '\v', '\f', '\r'
  (0x09 ≤ n && n ≤ 0x0D) || n == 0x20 || n == 0x85 || n == 0xA0
    || n == 0x1680 || (0x2000 ≤ n && n ≤ 0x200A) || n == 0x2028 || n == 0x2029
    || n == 0x202F || n == 0x205F || n == 0x3000

/-- Go `unicode.ToUpper`: ASCII letters are shifted, every rune above
`MaxASCII` goes through the case tables `To(UpperCase, r)`, which are passed
as the parameter `upperCase`. -/
def ToUpper (upperCase : Char → Char) (r : Char) : Char :=
  if r.toNat ≤ 0x7F then
    if 'a'.toNat ≤ r.toNat ∧ r.toNat ≤ 'z'.toNat then Char.ofNat (r.toNat - ('a'.toNat - 'A'.toNat))
    else r
  else upperCase r

end unicode

namespace strings

/-- The scan of Go `strings.FieldsFunc`: the second argument is the field
being read (`start >= 0`), or `none` between fields (`start < 0`). -/
def FieldsFunc.go (f : Char → Bool) : List Char → Option (List Char) → List (List Char)
  | [], none => []
  | [], some cur => [cur]
  | r :: rest, none => if f r then go f rest none else go f rest (some [r])
  | r :: rest, some cur => if f r then cur :: go f rest none else go f rest (some (cur ++ [r]))

/-- Go `strings.Fields`: the maximal runs of non-space runes, in order. -/
def Fields (s : String) : List String :=
  (FieldsFunc.go unicode.IsSpace s.data none).map String.mk

/-- Go `strings.TrimSpace`. -/
def TrimSpace (s : String) : String :=
  ⟨(s.data.dropWhile unicode.IsSpace).rdropWhile unicode.IsSpace⟩

/-- Go `strings.HasPrefix`. -/
def HasPrefix (s pre : String) : Bool :=
  pre.data.isPrefixOf s.data

/-- Go `strings.ToUpper`: every rune mapped by `unicode.ToUpper`. -/
def ToUpper (upperCase : Char → Char) (s : String) : String :=
  ⟨s.data.map (unicode.ToUpper upperCase)⟩

end strings

namespace strconv

/-- The two causes a `*strconv.NumError` can carry here. -/
inductive ErrKind where
  | ErrSyntax
  | ErrRange
  deriving DecidableEq, Repr

/-- Go `strconv.NumError`. -/
structure NumError where
  Func : String
  Num : String
  Err : ErrKind
  deriving DecidableEq, Repr

/-- The digit a byte stands for in `ParseUint` (`lower(c)` is `c | 0x20`).
A rune above `MaxASCII` is a sequence of bytes `>= 0x80`, none of them a digit
or a letter. -/
def digitVal (c : Char) : Option Nat :=
  if 128 ≤ c.toNat then none
  else if '0'.toNat ≤ c.toNat ∧ c.toNat ≤ '9'.toNat then some (c.toNat - '0'.toNat)
  else if 'a'.toNat ≤ (c.toNat ||| 0x20) ∧ (c.toNat ||| 0x20) ≤ 'z'.toNat then
    some ((c.toNat ||| 0x20) - 'a'.toNat + 10)
  else none

/-- The largest `uint64`. -/
def maxUint64 : Nat := 2 ^ 64 - 1

/-- The digit loop of `ParseUint(s, 10, 64)` from the accumulator `n`. -/
def ParseUint.loop : List Char → Nat → Nat × Option ErrKind
  | [], n => (n, none)
  | c :: cs, n =>
    match digitVal c with
    | none => (0, some .ErrSyntax)
    | some d =>
      if d ≥ 10 then (0, some .ErrSyntax)
      else if n ≥ maxUint64 / 10 + 1 then (maxUint64, some .ErrRange)
      else
        let n10 := n * 10 % 2 ^ 64
        let n1 := (n10 + d) % 2 ^ 64
        if n1 < n10 ∨ n1 > maxUint64 then (maxUint64, some .ErrRange)
        else ParseUint.loop cs n1

/-- Go `strconv.ParseUint(s, 10, 64)`: value and cause of failure. -/
def ParseUint (s : List Char) : Nat × Option ErrKind :=
  if s = [] then (0, some .ErrSyntax) else ParseUint.loop s 0

/-- The conversion `int64(x)` of an integer value, wrapping. -/
def int64 (z : Int) : Int := (z + 2 ^ 63) % 2 ^ 64 - 2 ^ 63

/-- Go `strconv.ParseInt(s, 10, 64)`. -/
def ParseInt (s0 : String) : Int × Option NumError :=
  match s0.data with
  | [] => (0, some ⟨"ParseInt", s0, .ErrSyntax⟩)
  | c :: rest =>
    let neg := c == '-'
    let s := if c == '+' then rest else if c == '-' then rest else c :: rest
    match ParseUint s with
    | (_, some .ErrSyntax) => (0, some ⟨"ParseInt", s0, .ErrSyntax⟩)
    | (un, _) =>
      let cutoff : Nat := 2 ^ 63
      if !neg && un ≥ cutoff then (int64 (cutoff - 1), some ⟨"ParseInt", s0, .ErrRange⟩)
      else if neg && un > cutoff then
        (int64 (- int64 cutoff), some ⟨"ParseInt", s0, .ErrRange⟩)
      else
        let n := int64 un
        (if neg then int64 (-n) else n, none)

/-- A decimal digit `'0'..'9'`. -/
def isDecDigit (c : Char) : Bool := '0'.toNat ≤ c.toNat && c.toNat ≤ '9'.toNat

/-- The number a run of decimal digits denotes, continuing from `a`. -/
def decValueFrom (a : Nat) (ds : List Char) : Nat :=
  ds.foldl (fun a c => 10 * a + (c.toNat - '0'.toNat)) a

/-- The number a run of decimal digits denotes. -/
def decValue (ds : List Char) : Nat := decValueFrom 0 ds

/-- A valid base-10 signed 64-bit integer, in the words of the specification:
an optional sign followed by decimal digits, with value in `[-2^63, 2^63-1]`;
`none` when the token is not one. -/
def decimalInt64 (s : String) : Option Int :=
  match s.data with
  | [] => none
  | c :: r =>
    let ds := if c = '+' ∨ c = '-' then r else c :: r
    if ds ≠ [] ∧ ds.all isDecDigit = true then
      let v : Int := if c = '-' then - (decValue ds : Int) else (decValue ds : Int)
      if - 2 ^ 63 ≤ v ∧ v ≤ 2 ^ 63 - 1 then some v else none
    else none

end strconv

/-! ## `net/http` -/

/-- The fields of Go `http.Cookie` the parser assigns; the others keep their
zero value. `Expires` is `none` for the zero `time.Time` and `some ts` for
`time.Unix(ts, 0)`. -/
structure Cookie where
  Name : String := ""
  Value : String := ""
  Path : String := ""
  Domain : String := ""
  Expires : Option Int := none
  MaxAge : Int := 0
  Secure : Bool := false
  HttpOnly : Bool := false
  Raw : String := ""
  deriving DecidableEq, Repr

/-! ## `cmd/cookietxt.go` -/

/-- Constant `domainIdx = iota` in the first line of the constant block. -/
def domainIdx : Nat := 0
/-- Constant `pathIdx = iota + 1` in the second line, where `iota` is 1. -/
def pathIdx : Nat := 1 + 1
/-- Constant `secureIdx` repeats `iota + 1` with `iota = 2`. -/
def secureIdx : Nat := 2 + 1
/-- Constant `expirationIdx` repeats `iota + 1` with `iota = 3`. -/
def expirationIdx : Nat := 3 + 1
/-- Constant `nameIdx` repeats `iota + 1` with `iota = 4`. -/
def nameIdx : Nat := 4 + 1
/-- Constant `valueIdx` repeats `iota + 1` with `iota = 5`. -/
def valueIdx : Nat := 5 + 1

/-- Constant `httpOnlyPrefix`. -/
def httpOnlyPrefix : String := "#HttpOnly_"
/-- Constant `fieldsCount`. -/
def fieldsCount : Nat := 7

/-- The errors `ParseLine` returns. -/
inductive LineError where
  /-- Built by `fmt.Errorf("expecting fields=7, got=%d", len(f))` -/
  | fieldCount (got : Nat)
  /-- The `*strconv.NumError` of `strconv.ParseInt` -/
  | timestamp (e : strconv.NumError)
  deriving DecidableEq, Repr

/-- The errors `Parse` returns. -/
inductive ParseError where
  /-- Built by `fmt.Errorf("cookiestxt line:%d, err:%s", line, err)` -/
  | atLine (line : Nat) (cause : LineError)
  /-- The value of `scanner.Err()` -/
  | scan (msg : String)
  deriving DecidableEq, Repr

/-- The text of `strconv.ErrSyntax` and `strconv.ErrRange`. -/
def strconv.ErrKind.Error : strconv.ErrKind → String
  | .ErrSyntax => "invalid syntax"
  | .ErrRange => "value out of range"

/-- The message of a `ParseLine` error; `quote` is `strconv.Quote`. -/
def LineError.Error (quote : String → String) : LineError → String
  | .fieldCount got => "expecting fields=7, got=" ++ toString got
  | .timestamp e => "strconv." ++ e.Func ++ ": parsing " ++ quote e.Num ++ ": " ++ e.Err.Error

/-- The message of a `Parse` error. -/
def ParseError.Error (quote : String → String) : ParseError → String
  | .atLine line cause =>
    "cookiestxt line:" ++ toString line ++ ", err:" ++ cause.Error quote
  | .scan msg => msg

/-- Func `parseBool`. -/
def parseBool (upperCase : Char → Char) (input : String) : Bool :=
  strings.ToUpper upperCase input == "TRUE"

/-- The index expression `f[i]`. -/
def index (f : List String) (i : Nat) : Except Panic String :=
  match f[i]? with
  | some x => .ok x
  | none => .error (.indexOutOfRange i f.length)

/-- The slice expression `s[n:]` for a string whose first `n` bytes are ASCII
(the only use, `c.Domain[len(httpOnlyPrefix):]`, is guarded by `HasPrefix`). -/
def sliceFrom (s : String) (n : Nat) : Except Panic String :=
  if n ≤ s.utf8ByteSize then .ok ⟨s.data.drop n⟩
  else .error (.sliceOutOfRange n s.utf8ByteSize)

/-- The body of `ParseLine` after the field-count check, on the token slice
`f`. -/
def ParseLine.build (upperCase : Char → Char) (raw : String) (f : List String) :
    Except Panic (Option Cookie × Option LineError) := do
  let name ← index f nameIdx
  let value ← index f valueIdx
  let path ← index f pathIdx
  let secure ← index f secureIdx
  let c : Cookie :=
    { Raw := raw, Name := name, Value := value, Path := path, MaxAge := 0,
      Secure := parseBool upperCase secure }
  let expiration ← index f expirationIdx
  match strconv.ParseInt expiration with
  | (_, some e) => pure (some c, some (.timestamp e))
  | (ts, none) =>
    let c := { c with Expires := some ts }
    let domain ← index f domainIdx
    let c := { c with Domain := domain }
    if strings.HasPrefix c.Domain httpOnlyPrefix then
      let d ← sliceFrom c.Domain httpOnlyPrefix.utf8ByteSize
      pure (some { c with HttpOnly := true, Domain := d }, none)
    else
      pure (some c, none)

/-- Func `ParseLine`: the record pointer and the error it returns. -/
def ParseLine (upperCase : Char → Char) (raw : String) :
    Except Panic (Option Cookie × Option LineError) :=
  let f := strings.Fields raw
  if f.length = fieldsCount - 1 then
    ParseLine.build upperCase raw (f ++ [""])
  else if f.length < fieldsCount then
    pure (none, some (.fieldCount f.length))
  else
    ParseLine.build upperCase raw f

/-- What `bufio.Scanner` makes of the reader: the lines `Scan` yields and the
final `scanner.Err()`. -/
structure Reader where
  lines : List String
  err : Option String := none

/-- The `for scanner.Scan()` loop of `Parse` on the remaining lines, with the
current values of `line` and `cl`. -/
def Parse.loop (upperCase : Char → Char) (scanErr : Option String) :
    List String → Nat → List (Option Cookie) →
    Except Panic (List (Option Cookie) × Option ParseError)
  | [], _, cl => pure (cl, scanErr.map .scan)
  | text :: rest, line, cl =>
    let line := line + 1
    let trimed := strings.TrimSpace text
    if trimed.utf8ByteSize < fieldsCount then
      Parse.loop upperCase scanErr rest line cl
    else
      match trimed.data with
      | [] => throw (.indexOutOfRange 0 0)
      | b :: _ =>
        if b == '#' && !strings.HasPrefix trimed httpOnlyPrefix then
          Parse.loop upperCase scanErr rest line cl
        else
          match ParseLine upperCase text with
          | .error p => throw p
          | .ok (_, some err) => pure (cl, some (.atLine line err))
          | .ok (c, none) => Parse.loop upperCase scanErr rest (line + 1) (cl ++ [c])

/-- Func `Parse`. -/
def Parse (upperCase : Char → Char) (rd : Reader) :
    Except Panic (List (Option Cookie) × Option ParseError) :=
  Parse.loop upperCase rd.err rd.lines 0 []

/-- The token slice `f` of `ParseLine` after the field-count check has padded
a 6-token line. -/
def tokens (raw : String) : List String :=
  if (strings.Fields raw).length = fieldsCount - 1 then strings.Fields raw ++ [""]
  else strings.Fields raw

/-- What `ParseLine.build` returns on a slice of at least 7 tokens, written
without the index checks. -/
def ParseLine.outcome (upperCase : Char → Char) (raw : String) (g : List String) :
    Option Cookie × Option LineError :=
  let c : Cookie :=
    { Raw := raw, Name := g.getD nameIdx "", Value := g.getD valueIdx "",
      Path := g.getD pathIdx "", MaxAge := 0,
      Secure := parseBool upperCase (g.getD secureIdx "") }
  match strconv.ParseInt (g.getD expirationIdx "") with
  | (_, some e) => (some c, some (.timestamp e))
  | (ts, none) =>
    if strings.HasPrefix (g.getD domainIdx "") httpOnlyPrefix then
      (some { c with Expires := some ts, HttpOnly := true,
                     Domain := ⟨(g.getD domainIdx "").data.drop 10⟩ }, none)
    else
      (some { c with Expires := some ts, Domain := g.getD domainIdx "" }, none)

/-! ## Vocabulary of the specification -/

/-- A non-empty token without whitespace. -/
def isToken (t : String) : Bool :=
  !t.data.isEmpty && t.data.all (fun c => !unicode.IsSpace c)

/-- A possibly empty run of whitespace. -/
def isSpaces (s : String) : Bool :=
  s.data.all unicode.IsSpace

/-- A non-empty run of whitespace. -/
def isSeparator (s : String) : Bool :=
  !s.data.isEmpty && s.data.all unicode.IsSpace

/-- A blank line: nothing but whitespace. -/
def isBlank (line : String) : Bool :=
  (strings.TrimSpace line).data.isEmpty

/-- A comment line: its first non-whitespace character is `#` and its trimmed
text does not start with `#HttpOnly_`. -/
def isComment (line : String) : Bool :=
  (strings.TrimSpace line).data.head? == some '#'
    && !strings.HasPrefix (strings.TrimSpace line) httpOnlyPrefix

/-- The lines of a stream that are neither blank nor comments. -/
def dataLines (lines : List String) : List String :=
  lines.filter (fun l => !(isBlank l || isComment l))

/-- The lines `Parse` passes over: shorter than `fieldsCount` bytes once
trimmed, or a comment. -/
def skipped (line : String) : Bool :=
  decide ((strings.TrimSpace line).utf8ByteSize < fieldsCount) || isComment line

/-- A fragment of the Unicode upper-case tables, for evaluating the parser on
concrete text. -/
def sampleUpperCase (r : Char) : Char :=
  if r = 'é' then 'É' else if r = 'ı' then 'I' else if r = 'ſ' then 'S' else r

/-! ## `strconv.ParseInt` -/

namespace strconv

theorem digitVal_of_digit {c : Char} (h : isDecDigit c = true) :
    digitVal c = some (c.toNat - '0'.toNat) := by
  simp only [isDecDigit, Bool.and_eq_true, decide_eq_true_eq] at h
  have h0 : '0'.toNat = 48 := rfl
  have h9 : '9'.toNat = 57 := rfl
  rw [h0, h9] at h
  unfold digitVal
  rw [h0, h9]
  rw [if_neg (by omega), if_pos h]

theorem digitVal_of_not_digit {c : Char} (h : isDecDigit c = false) :
    digitVal c = none ∨ ∃ d, digitVal c = some d ∧ 10 ≤ d := by
  have h0 : '0'.toNat = 48 := rfl
  have h9 : '9'.toNat = 57 := rfl
  have h' : ¬ ('0'.toNat ≤ c.toNat ∧ c.toNat ≤ '9'.toNat) := by
    intro hc
    have ht : isDecDigit c = true := by
      simp only [isDecDigit, Bool.and_eq_true, decide_eq_true_eq]; exact hc
    rw [h] at ht; cases ht
  unfold digitVal
  by_cases h1 : 128 ≤ c.toNat
  · left; rw [if_pos h1]
  · rw [if_neg h1, if_neg h']
    split
    · right; exact ⟨_, rfl, by omega⟩
    · left; rfl

theorem decValueFrom_mono (ds : List Char) (a : Nat) : a ≤ decValueFrom a ds := by
  induction ds generalizing a with
  | nil => exact Nat.le_refl _
  | cons c cs ih =>
    have := ih (10 * a + (c.toNat - '0'.toNat))
    simp only [decValueFrom, List.foldl_cons] at this ⊢
    omega

theorem loop_digits (ds : List Char) (a : Nat) (hds : ∀ c ∈ ds, isDecDigit c = true)
    (ha : a < 2 ^ 64) :
    ParseUint.loop ds a =
      if decValueFrom a ds < 2 ^ 64 then (decValueFrom a ds, none)
      else (maxUint64, some .ErrRange) := by
  induction ds generalizing a with
  | nil =>
    simp only [ParseUint.loop, decValueFrom, List.foldl_nil]
    rw [if_pos ha]
  | cons c cs ih =>
    have hc := hds c (List.mem_cons_self _ _)
    have hcs : ∀ c ∈ cs, isDecDigit c = true := fun x hx => hds x (List.mem_cons_of_mem _ hx)
    have hd : c.toNat - '0'.toNat < 10 := by
      simp only [isDecDigit, Bool.and_eq_true, decide_eq_true_eq] at hc
      have h0 : '0'.toNat = 48 := rfl
      have h9 : '9'.toNat = 57 := rfl
      omega
    have hmono := decValueFrom_mono cs (10 * a + (c.toNat - '0'.toNat))
    have hstep : decValueFrom a (c :: cs) = decValueFrom (10 * a + (c.toNat - '0'.toNat)) cs := rfl
    rw [ParseUint.loop, digitVal_of_digit hc, hstep]
    simp only [maxUint64] at *
    generalize c.toNat - '0'.toNat = d at *
    by_cases h1 : a ≥ (2 ^ 64 - 1) / 10 + 1
    · rw [if_neg (by omega), if_pos h1, if_neg (by omega)]
    · rw [if_neg (by omega), if_neg h1]
      by_cases h2 : 10 * a + d < 2 ^ 64
      · have e1 : a * 10 % 2 ^ 64 = a * 10 := Nat.mod_eq_of_lt (by omega)
        have e2 : (a * 10 + d) % 2 ^ 64 = 10 * a + d := by
          rw [Nat.mod_eq_of_lt (by omega)]; omega
        simp only [e1, e2]
        rw [if_neg (by omega)]
        exact ih _ hcs h2
      · have e1 : a * 10 % 2 ^ 64 = a * 10 := Nat.mod_eq_of_lt (by omega)
        simp only [e1]
        rw [if_pos (by omega), if_neg (by omega)]

theorem loop_ok_digits (ds : List Char) (a : Nat) (h : (ParseUint.loop ds a).2 = none) :
    ∀ c ∈ ds, isDecDigit c = true := by
  induction ds generalizing a with
  | nil => simp
  | cons c cs ih =>
    cases hc : isDecDigit c with
    | false =>
      exfalso
      rw [ParseUint.loop] at h
      rcases digitVal_of_not_digit hc with h0 | ⟨d, h0, hd⟩
      · rw [h0] at h; simp at h
      · rw [h0] at h; simp [hd] at h
    | true =>
      rw [ParseUint.loop, digitVal_of_digit hc] at h
      intro x hx
      rcases List.mem_cons.1 hx with rfl | hx
      · exact hc
      · simp only at h
        split_ifs at h
        exact ih _ h x hx


theorem loop_range_val (ds : List Char) (a : Nat)
    (h : (ParseUint.loop ds a).2 = some .ErrRange) : (ParseUint.loop ds a).1 = maxUint64 := by
  induction ds generalizing a with
  | nil => simp [ParseUint.loop] at h
  | cons c cs ih =>
    rw [ParseUint.loop] at h ⊢
    cases hd : digitVal c with
    | none => rw [hd] at h; simp at h
    | some d =>
      rw [hd] at h
      simp only at h ⊢
      split_ifs at h ⊢
      · simp at h
      · rfl
      · rfl
      · exact ih _ h

theorem int64_of_lt {n : Nat} (h : n < 2 ^ 63) : int64 (n : Int) = n := by
  unfold int64; omega

theorem int64_neg_of_le {n : Nat} (h : n ≤ 2 ^ 63) : int64 (- int64 (n : Int)) = - (n : Int) := by
  unfold int64; omega

/-- The result of `ParseInt` once the sign has been picked off. -/
theorem ParseInt_cons (s0 : String) (c : Char) (rest : List Char) (h : s0.data = c :: rest)
    (ds : List Char) (hds : ds = if c = '+' ∨ c = '-' then rest else c :: rest) :
    ParseInt s0 =
      match ParseUint ds with
      | (_, some .ErrSyntax) => (0, some ⟨"ParseInt", s0, .ErrSyntax⟩)
      | (un, _) =>
        if !(c == '-') && un ≥ 2 ^ 63 then (int64 ((2 ^ 63 : Nat) - 1), some ⟨"ParseInt", s0, .ErrRange⟩)
        else if (c == '-') && un > 2 ^ 63 then
          (int64 (- int64 (2 ^ 63 : Nat)), some ⟨"ParseInt", s0, .ErrRange⟩)
        else (if c == '-' then int64 (- int64 un) else int64 un, none) := by
  have e : (if c == '+' then rest else if c == '-' then rest else c :: rest) = ds := by
    subst hds
    by_cases h1 : c = '+'
    · simp [h1]
    · by_cases h2 : c = '-'
      · simp [h2]
      · simp [h1, h2]
  unfold ParseInt
  rw [h]
  simp only [e]

/-- Go `strconv.ParseInt(s, 10, 64)` accepts exactly the valid signed 64-bit
decimal integers and returns their value. -/
theorem ParseInt_spec (s : String) :
    match decimalInt64 s with
    | some v => ParseInt s = (v, none)
    | none => ∃ v k, ParseInt s = (v, some ⟨"ParseInt", s, k⟩) := by
  cases hs : s.data with
  | nil =>
    have e1 : decimalInt64 s = none := by simp [decimalInt64, hs]
    have e2 : ParseInt s = (0, some ⟨"ParseInt", s, .ErrSyntax⟩) := by simp [ParseInt, hs]
    rw [e1]; exact ⟨_, _, e2⟩
  | cons c rest =>
    obtain ⟨ds, hds⟩ : ∃ ds, ds = if c = '+' ∨ c = '-' then rest else c :: rest := ⟨_, rfl⟩
    have hP := ParseInt_cons s c rest hs ds hds
    have hD : decimalInt64 s =
        if ds ≠ [] ∧ ds.all isDecDigit = true then
          (if - 2 ^ 63 ≤ (if c = '-' then - (decValue ds : Int) else (decValue ds : Int)) ∧
              (if c = '-' then - (decValue ds : Int) else (decValue ds : Int)) ≤ 2 ^ 63 - 1
            then some (if c = '-' then - (decValue ds : Int) else (decValue ds : Int)) else none)
        else none := by
      unfold decimalInt64
      rw [hs]
      simp only [← hds]
    by_cases hne : ds = []
    · have e1 : decimalInt64 s = none := by rw [hD]; simp [hne]
      rw [e1, hP, hne]
      exact ⟨_, _, rfl⟩
    · by_cases hall : ds.all isDecDigit = true
      · have hall' : ∀ c ∈ ds, isDecDigit c = true := by simpa using hall
        have hl := loop_digits ds 0 hall' (by norm_num)
        have hU : ParseUint ds = ParseUint.loop ds 0 := by simp [ParseUint, hne]
        rw [hD, if_pos ⟨hne, hall⟩, hP, hU, hl]
        have hn : decValueFrom 0 ds = decValue ds := rfl
        rw [hn]
        generalize decValue ds = n
        have hmax : maxUint64 = 2 ^ 64 - 1 := rfl
        by_cases hneg : c = '-'
        · simp only [hneg, if_true, beq_self_eq_true, Bool.not_true, Bool.false_and, Bool.true_and]
          by_cases hr : n ≤ 2 ^ 63
          · rw [if_pos ⟨by omega, by omega⟩, if_pos (by omega)]
            simp only [decide_eq_true_eq, Bool.false_eq_true, if_false]
            rw [if_neg (by omega), int64_neg_of_le hr]
          · rw [if_neg (by omega)]
            by_cases h64 : n < 2 ^ 64
            · rw [if_pos h64]
              simp only [decide_eq_true_eq, Bool.false_eq_true, if_false]
              rw [if_pos (by omega)]
              exact ⟨_, _, rfl⟩
            · rw [if_neg h64]
              simp only [decide_eq_true_eq, Bool.false_eq_true, if_false, hmax]
              rw [if_pos (by omega)]
              exact ⟨_, _, rfl⟩
        · have hb : (c == '-') = false := by simpa using hneg
          simp only [hneg, if_false, hb, Bool.not_false, Bool.true_and, Bool.false_and]
          by_cases hr : n < 2 ^ 63
          · rw [if_pos ⟨by omega, by omega⟩, if_pos (by omega)]
            simp only [decide_eq_true_eq, Bool.false_eq_true, if_false]
            rw [if_neg (by omega), int64_of_lt hr]
          · rw [if_neg (by omega)]
            by_cases h64 : n < 2 ^ 64
            · rw [if_pos h64]
              simp only [decide_eq_true_eq]
              rw [if_pos (by omega)]
              exact ⟨_, _, rfl⟩
            · rw [if_neg h64]
              simp only [decide_eq_true_eq, hmax]
              rw [if_pos (by omega)]
              exact ⟨_, _, rfl⟩
      · have e1 : decimalInt64 s = none := by rw [hD, if_neg (fun h => hall h.2)]
        have hU : ParseUint ds = ParseUint.loop ds 0 := by simp [ParseUint, hne]
        rw [e1, hP, hU]
        have hne2 : (ParseUint.loop ds 0).2 ≠ none := by
          intro h0
          exact hall (by simpa using loop_ok_digits ds 0 h0)
        have hmax : maxUint64 = 2 ^ 64 - 1 := rfl
        rcases hres : ParseUint.loop ds 0 with ⟨un, e⟩
        rw [hres] at hne2
        cases e with
        | none => exact absurd rfl hne2
        | some k =>
          cases k with
          | ErrSyntax => exact ⟨_, _, rfl⟩
          | ErrRange =>
            have hv := loop_range_val ds 0 (by rw [hres])
            rw [hres] at hv
            simp only at hv
            subst hv
            simp only [hmax]
            by_cases hneg : c = '-'
            · simp only [hneg, beq_self_eq_true, Bool.not_true, Bool.false_and, Bool.true_and,
                decide_eq_true_eq, Bool.false_eq_true, if_false]
              rw [if_pos (by omega)]
              exact ⟨_, _, rfl⟩
            · have hb : (c == '-') = false := by simpa using hneg
              simp only [hb, Bool.not_false, Bool.true_and, decide_eq_true_eq]
              rw [if_pos (by omega)]
              exact ⟨_, _, rfl⟩

theorem digitChar_digit (k : Nat) (hk : k < 10) :
    isDecDigit (Nat.digitChar k) = true ∧ (Nat.digitChar k).toNat - '0'.toNat = k := by
  interval_cases k <;> exact ⟨rfl, rfl⟩

theorem decValueFrom_append (a : Nat) (l : List Char) (d : Char) :
    decValueFrom a (l ++ [d]) = 10 * decValueFrom a l + (d.toNat - '0'.toNat) := by
  simp [decValueFrom, List.foldl_append]

theorem toDigitsCore_spec (fuel n : Nat) (ds : List Char) (h : n < fuel) :
    ∃ l, Nat.toDigitsCore 10 fuel n ds = l ++ ds ∧ l ≠ [] ∧
      (∀ c ∈ l, isDecDigit c = true) ∧ decValue l = n := by
  induction fuel generalizing n ds with
  | zero => omega
  | succ fuel ih =>
    have hd := digitChar_digit (n % 10) (Nat.mod_lt _ (by norm_num))
    rw [Nat.toDigitsCore]
    by_cases h0 : n / 10 = 0
    · simp only [h0, if_true]
      refine ⟨[Nat.digitChar (n % 10)], rfl, by simp, ?_, ?_⟩
      · intro c hc
        rw [List.mem_singleton.1 hc]; exact hd.1
      · have : decValue [Nat.digitChar (n % 10)] = 10 * 0 + ((Nat.digitChar (n % 10)).toNat - '0'.toNat) := rfl
        rw [this, hd.2]; omega
    · simp only [h0, if_false]
      obtain ⟨l, hl, _, hdig, hval⟩ := ih (n / 10) (Nat.digitChar (n % 10) :: ds) (by omega)
      refine ⟨l ++ [Nat.digitChar (n % 10)], by rw [hl]; simp, by simp, ?_, ?_⟩
      · intro c hc
        rcases List.mem_append.1 hc with hc | hc
        · exact hdig c hc
        · rw [List.mem_singleton.1 hc]; exact hd.1
      · unfold decValue at hval ⊢
        rw [decValueFrom_append, hval, hd.2]; omega

theorem repr_spec (n : Nat) :
    (Nat.repr n).data ≠ [] ∧ (∀ c ∈ (Nat.repr n).data, isDecDigit c = true) ∧
      decValue (Nat.repr n).data = n := by
  obtain ⟨l, hl, hne, hdig, hval⟩ := toDigitsCore_spec (n + 1) n [] (Nat.lt_succ_self n)
  have e : (Nat.repr n).data = l := by
    show Nat.toDigitsCore 10 (n + 1) n [] = l
    rw [hl]; simp
  rw [e]; exact ⟨hne, hdig, hval⟩

/-- The decimal rendering of a 64-bit integer is a valid token with that
value. -/
theorem decimalInt64_toString (n : Int) (hlo : - 2 ^ 63 ≤ n) (hhi : n ≤ 2 ^ 63 - 1) :
    decimalInt64 (toString n) = some n := by
  have hsplit : ∀ (c : Char) (r : List Char), isDecDigit c = true → c ≠ '+' ∧ c ≠ '-' := by
    intro c r hc
    constructor <;> (rintro rfl; exact absurd hc (by decide))
  cases n with
  | ofNat m =>
    obtain ⟨hne, hdig, hval⟩ := repr_spec m
    have e : (toString (Int.ofNat m)).data = (Nat.repr m).data := rfl
    unfold decimalInt64
    rw [e]
    cases hd : (Nat.repr m).data with
    | nil => exact absurd hd hne
    | cons c r =>
      rw [hd] at hdig hval
      have hc := hsplit c r (hdig c (List.mem_cons_self _ _))
      have hall : (c :: r).all isDecDigit = true := by simpa using hdig
      simp only [hc.1, hc.2, or_self, if_false, hval]
      rw [if_pos ⟨by simp, hall⟩, if_pos ⟨by simp; omega, by simp at hhi ⊢; omega⟩]
      rfl
  | negSucc m =>
    obtain ⟨hne, hdig, hval⟩ := repr_spec (m + 1)
    have e : (toString (Int.negSucc m)).data = '-' :: (Nat.repr (m + 1)).data := rfl
    unfold decimalInt64
    rw [e]
    have hall : (Nat.repr (m + 1)).data.all isDecDigit = true := by simpa using hdig
    have hm : Int.negSucc m = - ((m : Int) + 1) := Int.negSucc_eq m
    rw [hm] at hlo hhi ⊢
    simp only [or_true, if_true, hval]
    rw [if_pos ⟨hne, hall⟩, if_pos ⟨by push_cast; omega, by push_cast; omega⟩]
    push_cast; rfl

end strconv

/-! ## `strings.Fields` -/

namespace strings

theorem go_space_none (f : Char → Bool) (ws rest : List Char) (h : ∀ c ∈ ws, f c = true) :
    FieldsFunc.go f (ws ++ rest) none = FieldsFunc.go f rest none := by
  induction ws with
  | nil => rfl
  | cons c cs ih =>
    have hc := h c (List.mem_cons_self _ _)
    rw [List.cons_append, FieldsFunc.go, if_pos hc]
    exact ih (fun x hx => h x (List.mem_cons_of_mem _ hx))

theorem go_token_some (f : Char → Bool) (tok rest cur : List Char)
    (h : ∀ c ∈ tok, f c = false) :
    FieldsFunc.go f (tok ++ rest) (some cur) = FieldsFunc.go f rest (some (cur ++ tok)) := by
  induction tok generalizing cur with
  | nil => simp
  | cons c cs ih =>
    have hc := h c (List.mem_cons_self _ _)
    rw [List.cons_append, FieldsFunc.go, hc]
    simp only [Bool.false_eq_true, if_false]
    rw [ih _ (fun x hx => h x (List.mem_cons_of_mem _ hx))]
    simp

theorem go_token_none (f : Char → Bool) (tok rest : List Char) (hne : tok ≠ [])
    (h : ∀ c ∈ tok, f c = false) :
    FieldsFunc.go f (tok ++ rest) none = FieldsFunc.go f rest (some tok) := by
  cases tok with
  | nil => exact absurd rfl hne
  | cons c cs =>
    have hc := h c (List.mem_cons_self _ _)
    rw [List.cons_append, FieldsFunc.go, hc]
    simp only [Bool.false_eq_true, if_false]
    rw [go_token_some f cs rest [c] (fun x hx => h x (List.mem_cons_of_mem _ hx))]
    simp

theorem go_space_some (f : Char → Bool) (ws rest cur : List Char) (hne : ws ≠ [])
    (h : ∀ c ∈ ws, f c = true) :
    FieldsFunc.go f (ws ++ rest) (some cur) = cur :: FieldsFunc.go f rest none := by
  cases ws with
  | nil => exact absurd rfl hne
  | cons c cs =>
    have hc := h c (List.mem_cons_self _ _)
    rw [List.cons_append, FieldsFunc.go, if_pos hc]
    rw [go_space_none f cs rest (fun x hx => h x (List.mem_cons_of_mem _ hx))]

/-- A token followed by a non-empty run of spaces is the next field. -/
theorem go_field (f : Char → Bool) (tok ws rest : List Char) (hne : tok ≠ [])
    (htok : ∀ c ∈ tok, f c = false) (hws : ws ≠ []) (hsp : ∀ c ∈ ws, f c = true) :
    FieldsFunc.go f (tok ++ (ws ++ rest)) none = tok :: FieldsFunc.go f rest none := by
  rw [go_token_none f tok _ hne htok, go_space_some f ws rest tok hws hsp]

/-- The last token, followed by any run of spaces, is the last field. -/
theorem go_last (f : Char → Bool) (tok ws : List Char) (hne : tok ≠ [])
    (htok : ∀ c ∈ tok, f c = false) (hsp : ∀ c ∈ ws, f c = true) :
    FieldsFunc.go f (tok ++ ws) none = [tok] := by
  rw [go_token_none f tok _ hne htok]
  cases ws with
  | nil => rfl
  | cons c cs =>
    have := go_space_some f (c :: cs) [] tok (by simp) hsp
    rw [List.append_nil] at this
    rw [this]; rfl

/-- Every field is non-empty and free of separators. -/
theorem go_fields_mem (f : Char → Bool) (l : List Char) (st : Option (List Char))
    (hst : ∀ cur, st = some cur → cur ≠ [] ∧ ∀ c ∈ cur, f c = false) :
    ∀ t ∈ FieldsFunc.go f l st, t ≠ [] ∧ ∀ c ∈ t, f c = false := by
  induction l generalizing st with
  | nil =>
    cases st with
    | none => simp [FieldsFunc.go]
    | some cur =>
      intro t ht
      simp only [FieldsFunc.go, List.mem_singleton] at ht
      rw [ht]; exact hst cur rfl
  | cons r rest ih =>
    cases st with
    | none =>
      rw [FieldsFunc.go]
      cases hr : f r with
      | true => simp only [if_true]; exact ih none (by simp)
      | false =>
        simp only [Bool.false_eq_true, if_false]
        refine ih (some [r]) ?_
        intro cur hcur
        cases hcur
        exact ⟨by simp, by simpa using hr⟩
    | some cur =>
      rw [FieldsFunc.go]
      have hcur := hst cur rfl
      cases hr : f r with
      | true =>
        simp only [if_true]
        intro t ht
        rcases List.mem_cons.1 ht with rfl | ht
        · exact hcur
        · exact ih none (by simp) t ht
      | false =>
        simp only [Bool.false_eq_true, if_false]
        refine ih (some (cur ++ [r])) ?_
        intro cur2 h2
        cases h2
        refine ⟨by simp, ?_⟩
        intro c hc
        rcases List.mem_append.1 hc with hc | hc
        · exact hcur.2 c hc
        · rw [List.mem_singleton.1 hc]; exact hr

/-- Each field and each separator takes at least one rune. -/
theorem go_length_le (f : Char → Bool) (l : List Char) :
    2 * (FieldsFunc.go f l none).length ≤ l.length + 1 ∧
      ∀ cur, 2 * (FieldsFunc.go f l (some cur)).length ≤ l.length + 2 := by
  induction l with
  | nil => simp [FieldsFunc.go]
  | cons r rest ih =>
    constructor
    · rw [FieldsFunc.go]
      split
      · have := ih.1; simp only [List.length_cons]; omega
      · have := ih.2 [r]; simp only [List.length_cons]; omega
    · intro cur
      rw [FieldsFunc.go]
      split
      · have := ih.1; simp only [List.length_cons]; omega
      · have := ih.2 (cur ++ [r]); simp only [List.length_cons]; omega

theorem go_append_spaces (f : Char → Bool) (l ws : List Char) (st : Option (List Char))
    (h : ∀ c ∈ ws, f c = true) :
    FieldsFunc.go f (l ++ ws) st = FieldsFunc.go f l st := by
  induction l generalizing st with
  | nil =>
    cases st with
    | none =>
      have := go_space_none f ws [] h
      rw [List.append_nil] at this
      rw [List.nil_append, this]
    | some cur =>
      cases ws with
      | nil => rfl
      | cons c cs =>
        have := go_space_some f (c :: cs) [] cur (by simp) h
        rw [List.append_nil] at this
        rw [List.nil_append, this]; rfl
  | cons r rest ih =>
    cases st with
    | none => rw [List.cons_append, FieldsFunc.go, FieldsFunc.go, ih, ih]
    | some cur => rw [List.cons_append, FieldsFunc.go, FieldsFunc.go, ih, ih]

theorem go_dropWhile (f : Char → Bool) (l : List Char) :
    FieldsFunc.go f (l.dropWhile f) none = FieldsFunc.go f l none := by
  induction l with
  | nil => rfl
  | cons r rest ih =>
    rw [List.dropWhile_cons]
    cases hr : f r with
    | true => simp only [if_true]; rw [ih, FieldsFunc.go, if_pos hr]
    | false => simp

theorem go_rdropWhile (f : Char → Bool) (l : List Char) (st : Option (List Char)) :
    FieldsFunc.go f (l.rdropWhile f) st = FieldsFunc.go f l st := by
  have h : l.rdropWhile f ++ l.rtakeWhile f = l := by
    have := List.takeWhile_append_dropWhile f l.reverse
    have h2 := congrArg List.reverse this
    rw [List.reverse_append, List.reverse_reverse] at h2
    exact h2
  have hsp : ∀ c ∈ l.rtakeWhile f, f c = true := by
    intro c hc
    simp only [List.rtakeWhile, List.mem_reverse] at hc
    exact List.mem_takeWhile_imp hc
  conv_rhs => rw [← h]
  rw [go_append_spaces f _ _ st hsp]

/-- Trimming does not change the fields. -/
theorem Fields_TrimSpace (s : String) : Fields (TrimSpace s) = Fields s := by
  simp only [Fields, TrimSpace]
  rw [go_rdropWhile, go_dropWhile]

theorem utf8ByteSize_go_ge (l : List Char) : l.length ≤ String.utf8ByteSize.go l := by
  induction l with
  | nil => simp [String.utf8ByteSize.go]
  | cons c cs ih =>
    have := Char.utf8Size_pos c
    simp only [String.utf8ByteSize.go, List.length_cons]
    omega

theorem utf8ByteSize_ge (s : String) : s.data.length ≤ s.utf8ByteSize := by
  cases s with
  | mk l => exact utf8ByteSize_go_ge l

/-- A line of `k` fields has at least `2k - 1` bytes once trimmed. -/
theorem Fields_length_le (s : String) :
    2 * (Fields s).length ≤ (TrimSpace s).utf8ByteSize + 1 := by
  have h1 := (go_length_le unicode.IsSpace (TrimSpace s).data).1
  have h2 := utf8ByteSize_ge (TrimSpace s)
  have h3 : (Fields (TrimSpace s)).length = (Fields s).length := by rw [Fields_TrimSpace]
  simp only [Fields, List.length_map] at h3 ⊢
  omega

end strings

/-! ## `ParseLine` in closed form -/

theorem index_eq (g : List String) (i : Nat) (h : i < g.length) :
    index g i = .ok (g.getD i "") := by
  simp [index, List.getD, List.getElem?_eq_getElem h]

theorem sliceFrom_eq (s : String) (h : strings.HasPrefix s httpOnlyPrefix = true) :
    sliceFrom s httpOnlyPrefix.utf8ByteSize = .ok ⟨s.data.drop 10⟩ := by
  have h1 : httpOnlyPrefix.utf8ByteSize = 10 := rfl
  have h2 : httpOnlyPrefix.data.length = 10 := rfl
  have h3 : httpOnlyPrefix.data <+: s.data := List.isPrefixOf_iff_prefix.1 h
  have h4 := h3.length_le
  have h5 := strings.utf8ByteSize_ge s
  rw [h1, sliceFrom, if_pos (by omega)]

theorem build_eq (upperCase : Char → Char) (raw : String) (g : List String)
    (h : 7 ≤ g.length) :
    ParseLine.build upperCase raw g = .ok (ParseLine.outcome upperCase raw g) := by
  unfold ParseLine.build ParseLine.outcome
  rw [index_eq g nameIdx (by simp only [nameIdx]; omega),
    index_eq g valueIdx (by simp only [valueIdx]; omega),
    index_eq g pathIdx (by simp only [pathIdx]; omega),
    index_eq g secureIdx (by simp only [secureIdx]; omega),
    index_eq g expirationIdx (by simp only [expirationIdx]; omega),
    index_eq g domainIdx (by simp only [domainIdx]; omega)]
  simp only [bind, Except.bind, pure, Except.pure]
  rcases strconv.ParseInt (g.getD expirationIdx "") with ⟨ts, e⟩
  cases e with
  | some e => rfl
  | none =>
    simp only
    by_cases hp : strings.HasPrefix (g.getD domainIdx "") httpOnlyPrefix = true
    · rw [if_pos hp, if_pos hp, sliceFrom_eq _ hp]
    · rw [if_neg hp, if_neg hp]

theorem tokens_length (raw : String) (h : 6 ≤ (strings.Fields raw).length) :
    7 ≤ (tokens raw).length := by
  unfold tokens fieldsCount
  split
  · simp only [List.length_append, List.length_singleton]; omega
  · omega

/-- Func `ParseLine` never panics: it returns the field-count error below 6
tokens and the outcome of the padded token slice otherwise. -/
theorem ParseLine_eq (upperCase : Char → Char) (raw : String) :
    ParseLine upperCase raw =
      if (strings.Fields raw).length < 6 then
        .ok (none, some (.fieldCount (strings.Fields raw).length))
      else .ok (ParseLine.outcome upperCase raw (tokens raw)) := by
  unfold ParseLine
  simp only [fieldsCount]
  by_cases h6 : (strings.Fields raw).length = 6
  · have ht : tokens raw = strings.Fields raw ++ [""] := by simp [tokens, fieldsCount, h6]
    rw [if_pos (by omega), if_neg (by omega), ht]
    exact build_eq _ _ _ (by simp only [List.length_append, List.length_singleton]; omega)
  · have ht : tokens raw = strings.Fields raw := by simp [tokens, fieldsCount, h6]
    rw [if_neg (by omega)]
    by_cases h7 : (strings.Fields raw).length < 7
    · rw [if_pos h7, if_pos (by omega)]; rfl
    · rw [if_neg h7, if_neg (by omega), ht]
      exact build_eq _ _ _ (by omega)

/-! ## Lines built from tokens -/

theorem isToken_iff (t : String) :
    isToken t = true ↔ t.data ≠ [] ∧ ∀ c ∈ t.data, unicode.IsSpace c = false := by
  simp [isToken, List.isEmpty_iff]

theorem isSpaces_iff (s : String) :
    isSpaces s = true ↔ ∀ c ∈ s.data, unicode.IsSpace c = true := by
  simp [isSpaces]

theorem isSeparator_iff (s : String) :
    isSeparator s = true ↔ s.data ≠ [] ∧ ∀ c ∈ s.data, unicode.IsSpace c = true := by
  simp [isSeparator, List.isEmpty_iff]

/-- Leading whitespace, a token and a separator: the token is the first
field, the rest of the line gives the rest of the fields. -/
theorem Fields_cons (lead t sep rest : String) (hl : isSpaces lead = true)
    (ht : isToken t = true) (hs : isSeparator sep = true) :
    strings.Fields (lead ++ t ++ sep ++ rest) = t :: strings.Fields rest := by
  rw [isSpaces_iff] at hl
  rw [isToken_iff] at ht
  rw [isSeparator_iff] at hs
  simp only [strings.Fields, String.data_append, List.append_assoc]
  rw [strings.go_space_none _ _ _ hl, strings.go_field _ _ _ _ ht.1 ht.2 hs.1 hs.2]
  rfl

/-- The last token of a line, with trailing whitespace. -/
theorem Fields_last (t trail : String) (ht : isToken t = true) (hs : isSpaces trail = true) :
    strings.Fields (t ++ trail) = [t] := by
  rw [isSpaces_iff] at hs
  rw [isToken_iff] at ht
  simp only [strings.Fields, String.data_append]
  rw [strings.go_last _ _ _ ht.1 ht.2 hs]
  rfl

theorem String_append_assoc (a b c : String) : a ++ b ++ c = a ++ (b ++ c) := by
  apply String.ext
  simp only [String.data_append, List.append_assoc]

theorem String_empty_append (a : String) : "" ++ a = a := by
  apply String.ext
  simp only [String.data_append]
  rfl

/-- The fields of a line of seven tokens. -/
theorem Fields_seven (lead t0 s0 t1 s1 t2 s2 t3 s3 t4 s4 t5 s5 t6 trail : String)
    (hlead : isSpaces lead = true) (htrail : isSpaces trail = true)
    (h0 : isToken t0 = true) (h1 : isToken t1 = true) (h2 : isToken t2 = true)
    (h3 : isToken t3 = true) (h4 : isToken t4 = true) (h5 : isToken t5 = true)
    (h6 : isToken t6 = true)
    (hs0 : isSeparator s0 = true) (hs1 : isSeparator s1 = true) (hs2 : isSeparator s2 = true)
    (hs3 : isSeparator s3 = true) (hs4 : isSeparator s4 = true) (hs5 : isSeparator s5 = true) :
    strings.Fields
        (lead ++ t0 ++ s0 ++ t1 ++ s1 ++ t2 ++ s2 ++ t3 ++ s3 ++ t4 ++ s4 ++ t5 ++ s5 ++ t6 ++ trail)
      = [t0, t1, t2, t3, t4, t5, t6] := by
  have hnil : isSpaces "" = true := rfl
  have e : lead ++ t0 ++ s0 ++ t1 ++ s1 ++ t2 ++ s2 ++ t3 ++ s3 ++ t4 ++ s4 ++ t5 ++ s5 ++ t6 ++ trail
      = lead ++ t0 ++ s0 ++ ("" ++ t1 ++ s1 ++ ("" ++ t2 ++ s2 ++ ("" ++ t3 ++ s3 ++
          ("" ++ t4 ++ s4 ++ ("" ++ t5 ++ s5 ++ (t6 ++ trail)))))) := by
    simp only [String_append_assoc, String_empty_append]
  rw [e, Fields_cons _ _ _ _ hlead h0 hs0, Fields_cons _ _ _ _ hnil h1 hs1,
    Fields_cons _ _ _ _ hnil h2 hs2, Fields_cons _ _ _ _ hnil h3 hs3,
    Fields_cons _ _ _ _ hnil h4 hs4, Fields_cons _ _ _ _ hnil h5 hs5,
    Fields_last _ _ h6 htrail]

theorem isDecDigit_not_space (c : Char) (h : strconv.isDecDigit c = true) :
    unicode.IsSpace c = false := by
  simp only [strconv.isDecDigit, Bool.and_eq_true, decide_eq_true_eq] at h
  have h0 : '0'.toNat = 48 := rfl
  have h9 : '9'.toNat = 57 := rfl
  rw [h0, h9] at h
  have hn : ∀ k : Nat, k ≠ c.toNat → (c.toNat == k) = false := by
    intro k hk
    cases hb : (c.toNat == k) with
    | false => rfl
    | true => exact absurd (beq_iff_eq.1 hb).symm hk
  unfold unicode.IsSpace
  simp only [hn 0x20 (by omega), hn 0x85 (by omega), hn 0xA0 (by omega), hn 0x1680 (by omega),
    hn 0x2028 (by omega), hn 0x2029 (by omega), hn 0x202F (by omega), hn 0x205F (by omega),
    hn 0x3000 (by omega), Bool.or_false]
  have e1 : decide (c.toNat ≤ 0x0D) = false := decide_eq_false (by omega)
  have e2 : decide (0x2000 ≤ c.toNat) = false := decide_eq_false (by omega)
  rw [e1, e2]
  simp

/-- The decimal rendering of an integer is a token. -/
theorem isToken_toString (n : Int) : isToken (toString n) = true := by
  rw [isToken_iff]
  cases n with
  | ofNat m =>
    obtain ⟨hne, hdig, _⟩ := strconv.repr_spec m
    have e : (toString (Int.ofNat m)).data = (Nat.repr m).data := rfl
    rw [e]
    exact ⟨hne, fun c hc => isDecDigit_not_space c (hdig c hc)⟩
  | negSucc m =>
    obtain ⟨_, hdig, _⟩ := strconv.repr_spec (m + 1)
    have e : (toString (Int.negSucc m)).data = '-' :: (Nat.repr (m + 1)).data := rfl
    rw [e]
    refine ⟨by simp, ?_⟩
    intro c hc
    rcases List.mem_cons.1 hc with rfl | hc
    · rfl
    · exact isDecDigit_not_space c (hdig c hc)

theorem ParseInt_toString (n : Int) (hlo : - 2 ^ 63 ≤ n) (hhi : n ≤ 2 ^ 63 - 1) :
    strconv.ParseInt (toString n) = (n, none) := by
  have h := strconv.ParseInt_spec (toString n)
  rw [strconv.decimalInt64_toString n hlo hhi] at h
  exact h

/-- C1. Round trip of a well-formed line: seven tokens `t0 .. t6`, the fifth
the decimal rendering of a 64-bit integer `n`, joined by non-empty runs of
whitespace with optional leading and trailing whitespace, parse to the record
with `Domain = t0` less one leading `#HttpOnly_` (`HttpOnly` true exactly
then), `Path = t2`, `Secure = (ToUpper(t3) == "TRUE")`, `Expires = n`,
`Name = t5`, `Value = t6`, `MaxAge = 0`; `t1` is not consulted. -/
theorem ParseLine_round_trip (upperCase : Char → Char)
    (lead t0 s0 t1 s1 t2 s2 t3 s3 s4 t5 s5 t6 trail : String) (n : Int)
    (hlead : isSpaces lead = true) (htrail : isSpaces trail = true)
    (h0 : isToken t0 = true) (h1 : isToken t1 = true) (h2 : isToken t2 = true)
    (h3 : isToken t3 = true) (h5 : isToken t5 = true) (h6 : isToken t6 = true)
    (hs0 : isSeparator s0 = true) (hs1 : isSeparator s1 = true) (hs2 : isSeparator s2 = true)
    (hs3 : isSeparator s3 = true) (hs4 : isSeparator s4 = true) (hs5 : isSeparator s5 = true)
    (hlo : - 2 ^ 63 ≤ n) (hhi : n ≤ 2 ^ 63 - 1) :
    ParseLine upperCase
        (lead ++ t0 ++ s0 ++ t1 ++ s1 ++ t2 ++ s2 ++ t3 ++ s3 ++ toString n ++ s4 ++ t5 ++ s5
          ++ t6 ++ trail)
      = .ok (some
          { Domain := if strings.HasPrefix t0 httpOnlyPrefix then ⟨t0.data.drop 10⟩ else t0,
            HttpOnly := strings.HasPrefix t0 httpOnlyPrefix,
            Path := t2,
            Secure := strings.ToUpper upperCase t3 == "TRUE",
            Expires := some n,
            Name := t5,
            Value := t6,
            MaxAge := 0,
            Raw := lead ++ t0 ++ s0 ++ t1 ++ s1 ++ t2 ++ s2 ++ t3 ++ s3 ++ toString n ++ s4 ++ t5
              ++ s5 ++ t6 ++ trail }, none) := by
  have hf := Fields_seven lead t0 s0 t1 s1 t2 s2 t3 s3 (toString n) s4 t5 s5 t6 trail hlead htrail
    h0 h1 h2 h3 (isToken_toString n) h5 h6 hs0 hs1 hs2 hs3 hs4 hs5
  rw [ParseLine_eq, hf]
  have ht : tokens (lead ++ t0 ++ s0 ++ t1 ++ s1 ++ t2 ++ s2 ++ t3 ++ s3 ++ toString n ++ s4 ++ t5
      ++ s5 ++ t6 ++ trail) = [t0, t1, t2, t3, toString n, t5, t6] := by
    rw [tokens, hf]; rfl
  rw [ht, if_neg (by simp)]
  have hout : ∀ raw, ParseLine.outcome upperCase raw [t0, t1, t2, t3, toString n, t5, t6] =
      (some
          { Domain := if strings.HasPrefix t0 httpOnlyPrefix then ⟨t0.data.drop 10⟩ else t0,
            HttpOnly := strings.HasPrefix t0 httpOnlyPrefix,
            Path := t2,
            Secure := strings.ToUpper upperCase t3 == "TRUE",
            Expires := some n,
            Name := t5,
            Value := t6,
            MaxAge := 0,
            Raw := raw }, none) := by
    intro raw
    have e4 : [t0, t1, t2, t3, toString n, t5, t6].getD expirationIdx "" = toString n := rfl
    unfold ParseLine.outcome
    rw [e4, ParseInt_toString n hlo hhi]
    have e0 : [t0, t1, t2, t3, toString n, t5, t6].getD domainIdx "" = t0 := rfl
    rw [e0]
    cases hp : strings.HasPrefix t0 httpOnlyPrefix <;> rfl
  rw [hout]

theorem ParseLine_round_trip_witness :
    ParseLine sampleUpperCase " #HttpOnly_.example.com\tTRUE \t/\ttRuE\t1999999999\tsession  abc123\r"
      = .ok (some
          { Domain := ".example.com", HttpOnly := true, Path := "/", Secure := true,
            Expires := some 1999999999, Name := "session", Value := "abc123", MaxAge := 0,
            Raw := " #HttpOnly_.example.com\tTRUE \t/\ttRuE\t1999999999\tsession  abc123\r" },
          none) :=
  ParseLine_round_trip sampleUpperCase " " "#HttpOnly_.example.com" "\t" "TRUE" " \t" "/" "\t"
    "tRuE" "\t" "\t" "session" "  " "abc123" "\r" 1999999999
    (by decide) (by decide) (by decide) (by decide) (by decide) (by decide) (by decide)
    (by decide) (by decide) (by decide) (by decide) (by decide) (by decide) (by decide)
    (by decide) (by decide)

/-! ## The two outcomes of a line with enough tokens -/

/-- The record of a line whose expiration token is valid. -/
theorem outcome_ok (upperCase : Char → Char) (raw : String) (g : List String) (v : Int)
    (h : strconv.decimalInt64 (g.getD 4 "") = some v) :
    ParseLine.outcome upperCase raw g =
      (some
        { Domain := if strings.HasPrefix (g.getD 0 "") httpOnlyPrefix
            then ⟨(g.getD 0 "").data.drop 10⟩ else g.getD 0 "",
          HttpOnly := strings.HasPrefix (g.getD 0 "") httpOnlyPrefix,
          Path := g.getD 2 "",
          Secure := parseBool upperCase (g.getD 3 ""),
          Expires := some v,
          Name := g.getD 5 "",
          Value := g.getD 6 "",
          MaxAge := 0,
          Raw := raw }, none) := by
  have hp := strconv.ParseInt_spec (g.getD 4 "")
  rw [h] at hp
  unfold ParseLine.outcome
  simp only [expirationIdx, domainIdx, pathIdx, secureIdx, nameIdx, valueIdx, Nat.reduceAdd]
  rw [hp]
  cases hd : strings.HasPrefix (g.getD 0 "") httpOnlyPrefix <;> rfl

/-- The error of a line whose expiration token is not valid. -/
theorem outcome_err (upperCase : Char → Char) (raw : String) (g : List String)
    (h : strconv.decimalInt64 (g.getD 4 "") = none) :
    ∃ k, ParseLine.outcome upperCase raw g =
      (some
        { Raw := raw, Name := g.getD 5 "", Value := g.getD 6 "", Path := g.getD 2 "",
          MaxAge := 0, Secure := parseBool upperCase (g.getD 3 "") },
        some (.timestamp ⟨"ParseInt", g.getD 4 "", k⟩)) := by
  have hp := strconv.ParseInt_spec (g.getD 4 "")
  rw [h] at hp
  obtain ⟨v, k, hp⟩ := hp
  refine ⟨k, ?_⟩
  unfold ParseLine.outcome
  simp only [expirationIdx, domainIdx, pathIdx, secureIdx, nameIdx, valueIdx, Nat.reduceAdd]
  rw [hp]

theorem tokens_getD (raw : String) (i : Nat) (h : i < (strings.Fields raw).length) :
    (tokens raw).getD i "" = (strings.Fields raw).getD i "" := by
  unfold tokens
  split
  · simp only [List.getD_eq_getElem?_getD]
    rw [List.getElem?_append_left h]
  · rfl

theorem tokens_of_seven (raw : String) (h : 7 ≤ (strings.Fields raw).length) :
    tokens raw = strings.Fields raw := by
  unfold tokens fieldsCount
  rw [if_neg (by omega)]

theorem tokens_six_value (raw : String) (h : (strings.Fields raw).length = 6) :
    (tokens raw).getD 6 "" = "" := by
  unfold tokens fieldsCount
  rw [if_pos (by omega)]
  simp only [List.getD_eq_getElem?_getD]
  rw [List.getElem?_append_right (by omega)]
  simp [h]

/-- The counterexample to C2: on the example line the path is the third
token `/`, the secure flag comes from `FALSE`, and the line parses. -/
theorem spec_schema_counterexample :
    strings.Fields ".example.com\tTRUE\t/\tFALSE\t1999999999\tsession\tabc123"
        = [".example.com", "TRUE", "/", "FALSE", "1999999999", "session", "abc123"] ∧
      ∀ upperCase : Char → Char,
        ParseLine upperCase ".example.com\tTRUE\t/\tFALSE\t1999999999\tsession\tabc123"
          = .ok (some
              { Domain := ".example.com", HttpOnly := false, Path := "/", Secure := false,
                Expires := some 1999999999, Name := "session", Value := "abc123", MaxAge := 0,
                Raw := ".example.com\tTRUE\t/\tFALSE\t1999999999\tsession\tabc123" }, none) :=
  ⟨by decide, fun _ => rfl⟩

/-- C2, amended. Positional schema of the code: for every line with at least
7 tokens, the domain is token 0, the path token 2, the secure flag token 3,
the expiration token 4, the name token 5 and the value token 6 (0-based);
token 1 is not consulted. The line fails exactly when token 4 is not a valid
64-bit decimal integer. -/
theorem ParseLine_positions (upperCase : Char → Char) (raw : String)
    (h : 7 ≤ (strings.Fields raw).length) :
    (strconv.decimalInt64 ((strings.Fields raw).getD 4 "") = none →
        ∃ c k, ParseLine upperCase raw =
          .ok (c, some (.timestamp ⟨"ParseInt", (strings.Fields raw).getD 4 "", k⟩))) ∧
      (∀ v, strconv.decimalInt64 ((strings.Fields raw).getD 4 "") = some v →
        ParseLine upperCase raw = .ok (some
          { Domain := if strings.HasPrefix ((strings.Fields raw).getD 0 "") httpOnlyPrefix
              then ⟨((strings.Fields raw).getD 0 "").data.drop 10⟩
              else (strings.Fields raw).getD 0 "",
            HttpOnly := strings.HasPrefix ((strings.Fields raw).getD 0 "") httpOnlyPrefix,
            Path := (strings.Fields raw).getD 2 "",
            Secure := parseBool upperCase ((strings.Fields raw).getD 3 ""),
            Expires := some v,
            Name := (strings.Fields raw).getD 5 "",
            Value := (strings.Fields raw).getD 6 "",
            MaxAge := 0,
            Raw := raw }, none)) := by
  rw [ParseLine_eq, if_neg (by omega), tokens_of_seven raw h]
  constructor
  · intro hnone
    obtain ⟨k, hk⟩ := outcome_err upperCase raw _ hnone
    exact ⟨_, k, by rw [hk]⟩
  · intro v hv
    rw [outcome_ok upperCase raw _ v hv]

theorem ParseLine_positions_witness :
    7 ≤ (strings.Fields ".example.com\tTRUE\t/\tFALSE\t1999999999\tsession\tabc123").length ∧
      ParseLine sampleUpperCase ".example.com\tTRUE\t/\tFALSE\t1999999999\tsession\tabc123"
        = .ok (some
          { Domain := ".example.com", HttpOnly := false, Path := "/", Secure := false,
            Expires := some 1999999999, Name := "session", Value := "abc123", MaxAge := 0,
            Raw := ".example.com\tTRUE\t/\tFALSE\t1999999999\tsession\tabc123" }, none) :=
  ⟨by decide,
    (ParseLine_positions sampleUpperCase
      ".example.com\tTRUE\t/\tFALSE\t1999999999\tsession\tabc123" (by decide)).2
      1999999999 (by decide)⟩

/-- C3. Field-count failure: `ParseLine` returns the field-count error exactly
when the line splits into fewer than 6 tokens; the record is then absent, the
error carries the actual token count, and its message is
`expecting fields=7, got=<actual>`. -/
theorem ParseLine_field_count (upperCase : Char → Char) (quote : String → String)
    (raw : String) :
    ((∃ c k, ParseLine upperCase raw = .ok (c, some (.fieldCount k)))
        ↔ (strings.Fields raw).length < 6) ∧
      (∀ c k, ParseLine upperCase raw = .ok (c, some (.fieldCount k)) →
        c = none ∧ k = (strings.Fields raw).length ∧
          (LineError.fieldCount k).Error quote
            = "expecting fields=7, got=" ++ toString (strings.Fields raw).length) := by
  have key : ∀ c k, ParseLine upperCase raw = .ok (c, some (.fieldCount k)) →
      (strings.Fields raw).length < 6 ∧ c = none ∧ k = (strings.Fields raw).length := by
    intro c k hk
    rw [ParseLine_eq] at hk
    by_cases h6 : (strings.Fields raw).length < 6
    · rw [if_pos h6] at hk
      injection hk with hk
      injection hk with h1 h2
      injection h2 with h2
      injection h2 with h2
      exact ⟨h6, h1.symm, h2.symm⟩
    · exfalso
      rw [if_neg h6] at hk
      injection hk with hk
      cases hd : strconv.decimalInt64 ((tokens raw).getD 4 "") with
      | none =>
        obtain ⟨k2, hk2⟩ := outcome_err upperCase raw _ hd
        rw [hk2] at hk
        injection hk with _ h2
        injection h2 with h2
        cases h2
      | some v =>
        rw [outcome_ok upperCase raw _ v hd] at hk
        injection hk with _ h2
        cases h2
  constructor
  · constructor
    · rintro ⟨c, k, hk⟩
      exact (key c k hk).1
    · intro h6
      exact ⟨none, _, by rw [ParseLine_eq, if_pos h6]⟩
  · intro c k hk
    obtain ⟨_, h1, h2⟩ := key c k hk
    exact ⟨h1, h2, by rw [h2]; rfl⟩

/-- The counterexample to C4: a line of exactly 6 tokens whose expiration
token is not a number does not parse. -/
theorem six_tokens_counterexample :
    (strings.Fields ".example.com TRUE / FALSE soon session").length = 6 ∧
      ∀ upperCase : Char → Char,
        ParseLine upperCase ".example.com TRUE / FALSE soon session"
          = .ok (some
              { Raw := ".example.com TRUE / FALSE soon session", Name := "session", Value := "",
                Path := "/", MaxAge := 0, Secure := false },
              some (.timestamp ⟨"ParseInt", "soon", .ErrSyntax⟩)) :=
  ⟨by decide, fun _ => rfl⟩

/-- C4, amended. Optional value field: a line of exactly 6 tokens whose
expiration token (index 4) is a valid 64-bit decimal integer parses, with
`Value = ""`; a line of exactly 7 tokens that parses has its 7th token as
`Value`. -/
theorem ParseLine_optional_value (upperCase : Char → Char) (raw : String) :
    ((strings.Fields raw).length = 6 →
        strconv.decimalInt64 ((strings.Fields raw).getD 4 "") ≠ none →
        ∃ c, ParseLine upperCase raw = .ok (some c, none) ∧ c.Value = "") ∧
      ((strings.Fields raw).length = 7 →
        ∀ c, ParseLine upperCase raw = .ok (some c, none) →
          some c.Value = (strings.Fields raw)[6]?) := by
  constructor
  · intro h6 hv
    cases hd : strconv.decimalInt64 ((strings.Fields raw).getD 4 "") with
    | none => exact absurd hd hv
    | some v =>
      rw [← tokens_getD raw 4 (by omega)] at hd
      rw [ParseLine_eq, if_neg (by omega), outcome_ok upperCase raw _ v hd]
      exact ⟨_, rfl, tokens_six_value raw h6⟩
  · intro h7 c hc
    rw [ParseLine_eq, if_neg (by omega), tokens_of_seven raw (by omega)] at hc
    injection hc with hc
    cases hd : strconv.decimalInt64 ((strings.Fields raw).getD 4 "") with
    | none =>
      obtain ⟨k, hk⟩ := outcome_err upperCase raw _ hd
      rw [hk] at hc
      injection hc with _ h2
      cases h2
    | some v =>
      rw [outcome_ok upperCase raw _ v hd] at hc
      injection hc with h1 _
      injection h1 with h1
      rw [← h1]
      simp only [List.getD_eq_getElem?_getD]
      rw [List.getElem?_eq_getElem (by omega)]
      rfl

/-- C5. The expiration is the only field whose value can fail a line: a line
of at least 6 tokens returns an error (the `ParseInt` error on token 4) when
token 4 is not a valid base-10 signed 64-bit integer, and otherwise succeeds
with `Expires` that integer; `notanumber`, the empty string, `1.5` and
`9223372036854775808` are rejected by `ParseInt`. -/
theorem ParseLine_expiration (upperCase : Char → Char) (raw : String)
    (h : 6 ≤ (strings.Fields raw).length) :
    (strconv.decimalInt64 ((strings.Fields raw).getD 4 "") = none →
        ∃ c k, ParseLine upperCase raw =
          .ok (c, some (.timestamp ⟨"ParseInt", (strings.Fields raw).getD 4 "", k⟩))) ∧
      (∀ v, strconv.decimalInt64 ((strings.Fields raw).getD 4 "") = some v →
        ∃ c, ParseLine upperCase raw = .ok (some c, none) ∧ c.Expires = some v) ∧
      (∀ c e, ParseLine upperCase raw = .ok (c, some e) →
        strconv.decimalInt64 ((strings.Fields raw).getD 4 "") = none) ∧
      strconv.ParseInt "notanumber" = (0, some ⟨"ParseInt", "notanumber", .ErrSyntax⟩) ∧
      strconv.ParseInt "" = (0, some ⟨"ParseInt", "", .ErrSyntax⟩) ∧
      strconv.ParseInt "1.5" = (0, some ⟨"ParseInt", "1.5", .ErrSyntax⟩) ∧
      strconv.ParseInt "9223372036854775808"
        = (9223372036854775807, some ⟨"ParseInt", "9223372036854775808", .ErrRange⟩) ∧
      strconv.ParseInt "9223372036854775807" = (9223372036854775807, none) ∧
      strconv.ParseInt "-9223372036854775808" = (-9223372036854775808, none) := by
  have e4 := tokens_getD raw 4 (by omega)
  refine ⟨?_, ?_, ?_, rfl, rfl, rfl, by decide, by decide, by decide⟩
  · intro hnone
    rw [← e4] at hnone
    obtain ⟨k, hk⟩ := outcome_err upperCase raw _ hnone
    rw [ParseLine_eq, if_neg (by omega), hk, e4]
    exact ⟨_, k, rfl⟩
  · intro v hv
    rw [← e4] at hv
    rw [ParseLine_eq, if_neg (by omega), outcome_ok upperCase raw _ v hv]
    exact ⟨_, rfl, rfl⟩
  · intro c e hc
    cases hd : strconv.decimalInt64 ((strings.Fields raw).getD 4 "") with
    | none => rfl
    | some v =>
      exfalso
      rw [← e4] at hd
      rw [ParseLine_eq, if_neg (by omega), outcome_ok upperCase raw _ v hd] at hc
      injection hc with hc
      injection hc with _ h2
      cases h2

theorem ParseLine_optional_value_witness :
    (strings.Fields ".example.com TRUE / FALSE 1999999999 session").length = 6 ∧
      strconv.decimalInt64
        ((strings.Fields ".example.com TRUE / FALSE 1999999999 session").getD 4 "") ≠ none ∧
      ∃ c, ParseLine sampleUpperCase ".example.com TRUE / FALSE 1999999999 session"
        = .ok (some c, none) ∧ c.Value = "" :=
  ⟨by decide, by decide,
    (ParseLine_optional_value sampleUpperCase
      ".example.com TRUE / FALSE 1999999999 session").1 (by decide) (by decide)⟩

theorem ParseLine_expiration_witness :
    6 ≤ (strings.Fields ".example.com TRUE / FALSE 1999999999 session").length ∧
      ∃ c, ParseLine sampleUpperCase ".example.com TRUE / FALSE 1999999999 session"
        = .ok (some c, none) ∧ c.Expires = some 1999999999 :=
  ⟨by decide,
    (ParseLine_expiration sampleUpperCase ".example.com TRUE / FALSE 1999999999 session"
      (by decide)).2.1 1999999999 (by decide)⟩

/-- C6, the code at the failing input. On a timestamp failure `ParseLine`
returns the error together with a non-nil record (built before the
expiration is parsed: `Domain`, `Expires` and `HttpOnly` still zero), whereas
on a field-count failure the record is nil. -/
theorem ParseLine_timestamp_failure_record (upperCase : Char → Char) :
    ParseLine upperCase ".example.com\tTRUE\t/\tFALSE\tnotanumber\tsession\tabc123"
        = .ok (some
            { Raw := ".example.com\tTRUE\t/\tFALSE\tnotanumber\tsession\tabc123",
              Name := "session", Value := "abc123", Path := "/", MaxAge := 0, Secure := false,
              Domain := "", Expires := none, HttpOnly := false },
            some (.timestamp ⟨"ParseInt", "notanumber", .ErrSyntax⟩)) ∧
      (∀ raw, 6 ≤ (strings.Fields raw).length →
        strconv.decimalInt64 ((strings.Fields raw).getD 4 "") = none →
        ∃ c e, ParseLine upperCase raw = .ok (some c, some (.timestamp e))) ∧
      (∀ raw, (strings.Fields raw).length < 6 →
        ParseLine upperCase raw = .ok (none, some (.fieldCount (strings.Fields raw).length))) := by
  refine ⟨rfl, ?_, ?_⟩
  · intro raw h6 hnone
    rw [← tokens_getD raw 4 (by omega)] at hnone
    obtain ⟨k, hk⟩ := outcome_err upperCase raw _ hnone
    rw [ParseLine_eq, if_neg (by omega), hk]
    exact ⟨_, _, rfl⟩
  · intro raw h6
    rw [ParseLine_eq, if_pos h6]

/-! ## The `#HttpOnly_` marker -/

theorem tokens_cons (raw x : String) (F : List String) (h : strings.Fields raw = x :: F) :
    tokens raw = x :: (if F.length = 5 then F ++ [""] else F) := by
  unfold tokens fieldsCount
  rw [h]
  by_cases h5 : F.length = 5
  · rw [if_pos (by simp [h5]), if_pos h5]; rfl
  · rw [if_neg (by simpa using h5), if_neg h5]

theorem isToken_httpOnly (D : String) (h : isToken D = true) :
    isToken (httpOnlyPrefix ++ D) = true := by
  rw [isToken_iff] at h ⊢
  simp only [String.data_append]
  have hP : ∀ c ∈ httpOnlyPrefix.data, unicode.IsSpace c = false := by decide
  refine ⟨by simp [httpOnlyPrefix], ?_⟩
  intro c hc
  rcases List.mem_append.1 hc with hc | hc
  · exact hP c hc
  · exact h.2 c hc

theorem HasPrefix_httpOnly (D : String) :
    strings.HasPrefix (httpOnlyPrefix ++ D) httpOnlyPrefix = true := by
  simp only [strings.HasPrefix, String.data_append]
  exact List.isPrefixOf_iff_prefix.2 (List.prefix_append _ _)

theorem drop_httpOnly (D : String) :
    (⟨(httpOnlyPrefix ++ D).data.drop 10⟩ : String) = D := by
  apply String.ext
  simp only [String.data_append]
  rfl

/-- If a line parses, it has at least 6 tokens and a valid expiration. -/
theorem ParseLine_ok_inv (upperCase : Char → Char) (raw : String) (c : Option Cookie)
    (h : ParseLine upperCase raw = .ok (c, none)) :
    6 ≤ (strings.Fields raw).length ∧
      ∃ v, strconv.decimalInt64 ((tokens raw).getD 4 "") = some v := by
  rw [ParseLine_eq] at h
  by_cases h6 : (strings.Fields raw).length < 6
  · rw [if_pos h6] at h
    injection h with h
    injection h with _ h2
    cases h2
  · refine ⟨by omega, ?_⟩
    rw [if_neg h6] at h
    injection h with h
    cases hd : strconv.decimalInt64 ((tokens raw).getD 4 "") with
    | some v => exact ⟨v, rfl⟩
    | none =>
      obtain ⟨k, hk⟩ := outcome_err upperCase raw _ hd
      rw [hk] at h
      injection h with _ h2
      cases h2

/-- The counterexample to C7: with `D = "#HttpOnly_x"` the line whose domain
field is `D` yields `HttpOnly = true` and `Domain = "x"`, not `HttpOnly = false`
and `Domain = D`; and the two records differ in `Raw`. -/
theorem httpOnly_unwrap_counterexample :
    (∀ upperCase : Char → Char,
        ParseLine upperCase "#HttpOnly_x\tTRUE\t/\tFALSE\t1999999999\tsession\tabc123"
          = .ok (some
              { Domain := "x", HttpOnly := true, Path := "/", Secure := false,
                Expires := some 1999999999, Name := "session", Value := "abc123", MaxAge := 0,
                Raw := "#HttpOnly_x\tTRUE\t/\tFALSE\t1999999999\tsession\tabc123" }, none)) ∧
      (∀ upperCase : Char → Char,
        ParseLine upperCase "#HttpOnly_#HttpOnly_x\tTRUE\t/\tFALSE\t1999999999\tsession\tabc123"
          = .ok (some
              { Domain := "#HttpOnly_x", HttpOnly := true, Path := "/", Secure := false,
                Expires := some 1999999999, Name := "session", Value := "abc123", MaxAge := 0,
                Raw := "#HttpOnly_#HttpOnly_x\tTRUE\t/\tFALSE\t1999999999\tsession\tabc123" },
              none)) :=
  ⟨fun _ => rfl, fun _ => rfl⟩

/-- C7, amended. HttpOnly unwrap: for every token `D` that does not itself
start with `#HttpOnly_` and every line with domain field `D` that parses to a
record `c`, that record has `HttpOnly = false` and `Domain = D`, and the same
line with domain field `#HttpOnly_` + `D` parses to the record that differs
from `c` only in `HttpOnly = true` and in `Raw` (the text of its own line). -/
theorem ParseLine_httpOnly_unwrap (upperCase : Char → Char) (lead D sep rest : String)
    (c : Cookie) (hlead : isSpaces lead = true) (hD : isToken D = true)
    (hnp : strings.HasPrefix D httpOnlyPrefix = false) (hsep : isSeparator sep = true)
    (hvalid : ParseLine upperCase (lead ++ D ++ sep ++ rest) = .ok (some c, none)) :
    c.HttpOnly = false ∧ c.Domain = D ∧
      ParseLine upperCase (lead ++ (httpOnlyPrefix ++ D) ++ sep ++ rest)
        = .ok (some { c with HttpOnly := true, Domain := D,
                             Raw := lead ++ (httpOnlyPrefix ++ D) ++ sep ++ rest }, none) := by
  have hf1 := Fields_cons lead D sep rest hlead hD hsep
  have hf2 := Fields_cons lead (httpOnlyPrefix ++ D) sep rest hlead (isToken_httpOnly D hD) hsep
  have ht1 := tokens_cons _ _ _ hf1
  have ht2 := tokens_cons _ _ _ hf2
  obtain ⟨h6, v, hv⟩ := ParseLine_ok_inv upperCase _ _ hvalid
  have h6b : 6 ≤ (strings.Fields (lead ++ (httpOnlyPrefix ++ D) ++ sep ++ rest)).length := by
    rw [hf2]; rw [hf1] at h6; exact h6
  have hv2 : strconv.decimalInt64
      ((tokens (lead ++ (httpOnlyPrefix ++ D) ++ sep ++ rest)).getD 4 "") = some v := by
    rw [ht2]; rw [ht1] at hv; exact hv
  rw [ParseLine_eq, if_neg (by omega), outcome_ok upperCase _ _ v hv] at hvalid
  rw [ParseLine_eq, if_neg (by omega), outcome_ok upperCase _ _ v hv2]
  injection hvalid with hvalid
  injection hvalid with hvalid _
  injection hvalid with hvalid
  subst hvalid
  rw [ht1, ht2]
  have e1 : ∀ T : List String, (D :: T).getD 0 "" = D := fun _ => rfl
  have e2 : ∀ T : List String, ((httpOnlyPrefix ++ D) :: T).getD 0 "" = httpOnlyPrefix ++ D :=
    fun _ => rfl
  simp only [e1, e2, hnp, HasPrefix_httpOnly, drop_httpOnly, if_true, Bool.false_eq_true, if_false]
  exact ⟨trivial, trivial, rfl⟩

theorem ParseLine_httpOnly_unwrap_witness :
    ParseLine sampleUpperCase " .example.com\tTRUE\t/\tFALSE\t1999999999\tsession\tabc123"
        = .ok (some
            { Domain := ".example.com", HttpOnly := false, Path := "/", Secure := false,
              Expires := some 1999999999, Name := "session", Value := "abc123", MaxAge := 0,
              Raw := " .example.com\tTRUE\t/\tFALSE\t1999999999\tsession\tabc123" }, none) ∧
      ParseLine sampleUpperCase
          " #HttpOnly_.example.com\tTRUE\t/\tFALSE\t1999999999\tsession\tabc123"
        = .ok (some
            { Domain := ".example.com", HttpOnly := true, Path := "/", Secure := false,
              Expires := some 1999999999, Name := "session", Value := "abc123", MaxAge := 0,
              Raw := " #HttpOnly_.example.com\tTRUE\t/\tFALSE\t1999999999\tsession\tabc123" },
            none) :=
  ⟨rfl,
    (ParseLine_httpOnly_unwrap sampleUpperCase " " ".example.com" "\t"
      "TRUE\t/\tFALSE\t1999999999\tsession\tabc123"
      { Domain := ".example.com", HttpOnly := false, Path := "/", Secure := false,
        Expires := some 1999999999, Name := "session", Value := "abc123", MaxAge := 0,
        Raw := " .example.com\tTRUE\t/\tFALSE\t1999999999\tsession\tabc123" }
      (by decide) (by decide) (by decide) (by decide) rfl).2.2⟩

/-! ## The loop of `Parse` -/

/-- One turn of the loop of `Parse`: a skipped line only advances the line
counter; any other line is handed to `ParseLine`. The index `trimed[0]` is in
range, since the trimmed line has at least `fieldsCount` bytes there. -/
theorem loop_cons (upperCase : Char → Char) (scanErr : Option String) (text : String)
    (rest : List String) (line : Nat) (cl : List (Option Cookie)) :
    Parse.loop upperCase scanErr (text :: rest) line cl =
      if skipped text = true then Parse.loop upperCase scanErr rest (line + 1) cl
      else
        match ParseLine upperCase text with
        | .error p => .error p
        | .ok (_, some err) => .ok (cl, some (.atLine (line + 1) err))
        | .ok (c, none) => Parse.loop upperCase scanErr rest (line + 1 + 1) (cl ++ [c]) := by
  rw [Parse.loop]
  simp only [skipped, isComment, Bool.or_eq_true, decide_eq_true_eq]
  by_cases hlen : (strings.TrimSpace text).utf8ByteSize < fieldsCount
  · rw [if_pos hlen, if_pos (Or.inl hlen)]
  · rw [if_neg hlen]
    cases hd : (strings.TrimSpace text).data with
    | nil =>
      exfalso
      apply hlen
      have e : strings.TrimSpace text = ⟨[]⟩ := String.ext hd
      rw [e]
      decide
    | cons b bs =>
      simp only [List.head?_cons]
      have hb : ((some b == some '#') = (b == '#')) := by
        cases hbb : (b == '#') with
        | true => rw [beq_iff_eq.1 hbb]; rfl
        | false =>
          cases h2 : (some b == some '#') with
          | false => rfl
          | true =>
            have := beq_iff_eq.1 h2
            injection this with this
            rw [this] at hbb
            exact absurd hbb (by decide)
      simp only [hb]
      by_cases hc : (b == '#' && !strings.HasPrefix (strings.TrimSpace text) httpOnlyPrefix) = true
      · rw [if_pos hc, if_pos (Or.inr hc)]
      · rw [if_neg hc, if_neg (by rintro (h | h); exact hlen h; exact hc h)]
        rfl

/-- A line that parses yields a record. -/
theorem ParseLine_ok_some (upperCase : Char → Char) (raw : String) (c : Option Cookie)
    (h : ParseLine upperCase raw = .ok (c, none)) : ∃ r, c = some r := by
  obtain ⟨h6, v, hv⟩ := ParseLine_ok_inv upperCase raw c h
  rw [ParseLine_eq, if_neg (by omega), outcome_ok upperCase raw _ v hv] at h
  injection h with h
  injection h with h _
  exact ⟨_, h.symm⟩

/-- Every record `Parse` returns is the record of one of the lines. -/
theorem loop_records (upperCase : Char → Char) (scanErr : Option String) (lines : List String)
    (line : Nat) (cl res : List (Option Cookie)) (err : Option ParseError)
    (h : Parse.loop upperCase scanErr lines line cl = .ok (res, err)) :
    ∀ c ∈ res, c ∈ cl ∨ ∃ l ∈ lines, ParseLine upperCase l = .ok (c, none) := by
  induction lines generalizing line cl with
  | nil =>
    rw [Parse.loop] at h
    injection h with h
    injection h with h _
    intro c hc
    rw [← h] at hc
    exact Or.inl hc
  | cons text rest ih =>
    rw [loop_cons] at h
    by_cases hs : skipped text = true
    · rw [if_pos hs] at h
      intro c hc
      rcases ih _ _ h c hc with h1 | ⟨l, hl, hp⟩
      · exact Or.inl h1
      · exact Or.inr ⟨l, List.mem_cons_of_mem _ hl, hp⟩
    · rw [if_neg hs] at h
      rcases hp : ParseLine upperCase text with p | ⟨r, e⟩
      · rw [hp] at h; cases h
      · rw [hp] at h
        cases e with
        | some e =>
          simp only at h
          injection h with h
          injection h with h _
          intro c hc
          rw [← h] at hc
          exact Or.inl hc
        | none =>
          simp only at h
          intro c hc
          rcases ih _ _ h c hc with h1 | ⟨l, hl, hp2⟩
          · rcases List.mem_append.1 h1 with h1 | h1
            · exact Or.inl h1
            · rw [List.mem_singleton.1 h1]
              exact Or.inr ⟨text, List.mem_cons_self _ _, hp⟩
          · exact Or.inr ⟨l, List.mem_cons_of_mem _ hl, hp2⟩

/-! ## The domain and the marker -/

/-- The counterexample to C8: a doubled marker leaves a `Domain` that starts
with `#HttpOnly_`, and a marker inside the first token is kept; `Parse`
returns the same records. -/
theorem domain_marker_counterexample :
    (∀ upperCase : Char → Char,
        ParseLine upperCase "#HttpOnly_#HttpOnly_x\tTRUE\t/\tFALSE\t1999999999\tsession\tabc123"
          = .ok (some
              { Domain := "#HttpOnly_x", HttpOnly := true, Path := "/", Secure := false,
                Expires := some 1999999999, Name := "session", Value := "abc123", MaxAge := 0,
                Raw := "#HttpOnly_#HttpOnly_x\tTRUE\t/\tFALSE\t1999999999\tsession\tabc123" },
              none)) ∧
      (∀ upperCase : Char → Char,
        Parse upperCase
            ⟨["#HttpOnly_#HttpOnly_x\tTRUE\t/\tFALSE\t1999999999\tsession\tabc123",
              "a#HttpOnly_b\tTRUE\t/\tFALSE\t1999999999\tsession\tabc123"], none⟩
          = .ok ([some
              { Domain := "#HttpOnly_x", HttpOnly := true, Path := "/", Secure := false,
                Expires := some 1999999999, Name := "session", Value := "abc123", MaxAge := 0,
                Raw := "#HttpOnly_#HttpOnly_x\tTRUE\t/\tFALSE\t1999999999\tsession\tabc123" },
              some
              { Domain := "a#HttpOnly_b", HttpOnly := false, Path := "/", Secure := false,
                Expires := some 1999999999, Name := "session", Value := "abc123", MaxAge := 0,
                Raw := "a#HttpOnly_b\tTRUE\t/\tFALSE\t1999999999\tsession\tabc123" }], none)) :=
  ⟨fun _ => rfl, fun _ => rfl⟩

theorem getD_zero_eq_headD (l : List String) : l.getD 0 "" = l.headD "" := by
  cases l <;> rfl

/-- The domain of a parsed line is free of the marker when the first token
has no occurrence of it after its first character. -/
theorem ParseLine_domain_free (upperCase : Char → Char) (raw : String) (c : Cookie)
    (h : ParseLine upperCase raw = .ok (some c, none))
    (hfree : ¬ httpOnlyPrefix.data <:+: ((strings.Fields raw).headD "").data.tail) :
    ¬ httpOnlyPrefix.data <:+: c.Domain.data := by
  obtain ⟨h6, v, hv⟩ := ParseLine_ok_inv upperCase raw _ h
  rw [ParseLine_eq, if_neg (by omega), outcome_ok upperCase raw _ v hv] at h
  injection h with h
  injection h with h _
  injection h with h
  subst h
  rw [tokens_getD raw 0 (by omega), getD_zero_eq_headD]
  simp only
  intro hin
  apply hfree
  by_cases hp : strings.HasPrefix ((strings.Fields raw).headD "") httpOnlyPrefix = true
  · rw [if_pos hp] at hin
    have hs : ((strings.Fields raw).headD "").data.drop 10
        <:+ ((strings.Fields raw).headD "").data.tail := by
      have e : ∀ l : List Char, l.drop 10 = l.tail.drop 9 := by
        intro l
        cases l <;> rfl
      rw [e]
      exact List.drop_suffix _ _
    exact hin.trans hs.isInfix
  · rw [if_neg hp] at hin
    cases hd : ((strings.Fields raw).headD "").data with
    | nil =>
      rw [hd] at hin
      have := hin.length_le
      exact absurd this (by decide)
    | cons a l =>
      rw [hd] at hin
      rcases List.infix_cons_iff.1 hin with h1 | h1
      · exfalso
        apply hp
        unfold strings.HasPrefix
        rw [hd]
        exact List.isPrefixOf_iff_prefix.2 h1
      · exact h1

/-- The domain of a parsed line is its first token less one leading marker,
and its `Raw` is the line. -/
theorem ParseLine_Domain_Raw (upperCase : Char → Char) (raw : String) (c : Cookie)
    (h : ParseLine upperCase raw = .ok (some c, none)) :
    c.Domain =
        (if strings.HasPrefix ((strings.Fields raw).headD "") httpOnlyPrefix
          then ⟨((strings.Fields raw).headD "").data.drop 10⟩
          else (strings.Fields raw).headD "") ∧
      c.Raw = raw := by
  obtain ⟨h6, v, hv⟩ := ParseLine_ok_inv upperCase raw _ h
  rw [ParseLine_eq, if_neg (by omega), outcome_ok upperCase raw _ v hv] at h
  injection h with h
  injection h with h _
  injection h with h
  subst h
  rw [tokens_getD raw 0 (by omega), getD_zero_eq_headD]
  exact ⟨rfl, rfl⟩

/-- C8, amended. Domain invariant: for every line that parses, and for every
record `Parse` returns (whose line is its `Raw`, one of the lines of the
stream), `Domain` is the first token of the line with exactly one leading
`#HttpOnly_` consumed, and it does not contain the literal `#HttpOnly_`
whenever that first token has no occurrence of it other than at its very
start. -/
theorem Domain_without_marker (upperCase : Char → Char) :
    (∀ raw c, ParseLine upperCase raw = .ok (some c, none) →
        c.Domain =
            (if strings.HasPrefix ((strings.Fields raw).headD "") httpOnlyPrefix
              then ⟨((strings.Fields raw).headD "").data.drop 10⟩
              else (strings.Fields raw).headD "") ∧
          (¬ httpOnlyPrefix.data <:+: ((strings.Fields raw).headD "").data.tail →
            ¬ httpOnlyPrefix.data <:+: c.Domain.data)) ∧
      (∀ rd cl err, Parse upperCase rd = .ok (cl, err) →
        ∀ c ∈ cl, ∃ r, c = some r ∧ r.Raw ∈ rd.lines ∧
          ParseLine upperCase r.Raw = .ok (some r, none) ∧
          r.Domain =
            (if strings.HasPrefix ((strings.Fields r.Raw).headD "") httpOnlyPrefix
              then ⟨((strings.Fields r.Raw).headD "").data.drop 10⟩
              else (strings.Fields r.Raw).headD "") ∧
          (¬ httpOnlyPrefix.data <:+: ((strings.Fields r.Raw).headD "").data.tail →
            ¬ httpOnlyPrefix.data <:+: r.Domain.data)) := by
  have key : ∀ raw c, ParseLine upperCase raw = .ok (some c, none) →
      c.Domain =
          (if strings.HasPrefix ((strings.Fields raw).headD "") httpOnlyPrefix
            then ⟨((strings.Fields raw).headD "").data.drop 10⟩
            else (strings.Fields raw).headD "") ∧
        (¬ httpOnlyPrefix.data <:+: ((strings.Fields raw).headD "").data.tail →
          ¬ httpOnlyPrefix.data <:+: c.Domain.data) :=
    fun raw c h => ⟨(ParseLine_Domain_Raw upperCase raw c h).1,
      fun hfree => ParseLine_domain_free upperCase raw c h hfree⟩
  refine ⟨key, ?_⟩
  intro rd cl err h c hc
  rcases loop_records upperCase rd.err rd.lines 0 [] cl err h c hc with h1 | ⟨l, hl, hp⟩
  · cases h1
  · obtain ⟨r, hr⟩ := ParseLine_ok_some upperCase l c hp
    subst hr
    have hraw : r.Raw = l := (ParseLine_Domain_Raw upperCase l r hp).2
    refine ⟨r, rfl, ?_⟩
    rw [hraw]
    exact ⟨hl, hp, key l r hp⟩

theorem Domain_without_marker_witness :
    ∃ r : Cookie,
      some
        ({ Domain := ".example.com", HttpOnly := true, Path := "/", Secure := false,
           Expires := some 1999999999, Name := "session", Value := "abc123", MaxAge := 0,
           Raw := "#HttpOnly_.example.com\tTRUE\t/\tFALSE\t1999999999\tsession\tabc123" }
          : Cookie) = some r ∧
      r.Raw ∈ ["#x#HttpOnly_y a comment",
        "#HttpOnly_.example.com\tTRUE\t/\tFALSE\t1999999999\tsession\tabc123"] ∧
      ParseLine sampleUpperCase r.Raw = .ok (some r, none) ∧
      r.Domain =
        (if strings.HasPrefix ((strings.Fields r.Raw).headD "") httpOnlyPrefix
          then ⟨((strings.Fields r.Raw).headD "").data.drop 10⟩
          else (strings.Fields r.Raw).headD "") ∧
      (¬ httpOnlyPrefix.data <:+: ((strings.Fields r.Raw).headD "").data.tail →
        ¬ httpOnlyPrefix.data <:+: r.Domain.data) :=
  (Domain_without_marker sampleUpperCase).2
    ⟨["#x#HttpOnly_y a comment",
      "#HttpOnly_.example.com\tTRUE\t/\tFALSE\t1999999999\tsession\tabc123"], none⟩
    _ none rfl _ (List.mem_singleton.2 rfl)

/-! ## The secure flag -/

theorem Char_eq_iff_toNat (a b : Char) : a = b ↔ a.toNat = b.toNat := by
  constructor
  · intro h; rw [h]
  · intro h
    rw [← Char.ofNat_toNat a, ← Char.ofNat_toNat b, h]

theorem toNat_ofNat_ascii (k : Nat) (h : k < 128) : (Char.ofNat k).toNat = k := by
  interval_cases k <;> rfl

/-- The runes `unicode.ToUpper` sends to one of `T`, `R`, `U`, `E`, for case
tables that send no rune above `MaxASCII` to one of these letters. -/
theorem ToUpper_eq_iff (upperCase : Char → Char)
    (hU : ∀ r : Char, 0x7F < r.toNat →
      upperCase r ≠ 'T' ∧ upperCase r ≠ 'R' ∧ upperCase r ≠ 'U' ∧ upperCase r ≠ 'E')
    (r : Char) :
    (unicode.ToUpper upperCase r = 'T' ↔ r = 't' ∨ r = 'T') ∧
      (unicode.ToUpper upperCase r = 'R' ↔ r = 'r' ∨ r = 'R') ∧
      (unicode.ToUpper upperCase r = 'U' ↔ r = 'u' ∨ r = 'U') ∧
      (unicode.ToUpper upperCase r = 'E' ↔ r = 'e' ∨ r = 'E') := by
  have ha : 'a'.toNat = 97 := rfl
  have hz : 'z'.toNat = 122 := rfl
  have hA : 'A'.toNat = 65 := rfl
  have ht : 't'.toNat = 116 := rfl
  have hT : 'T'.toNat = 84 := rfl
  have hr : 'r'.toNat = 114 := rfl
  have hR : 'R'.toNat = 82 := rfl
  have hu : 'u'.toNat = 117 := rfl
  have hUU : 'U'.toNat = 85 := rfl
  have he : 'e'.toNat = 101 := rfl
  have hE : 'E'.toNat = 69 := rfl
  unfold unicode.ToUpper
  by_cases h1 : r.toNat ≤ 0x7F
  · rw [if_pos h1]
    by_cases h2 : 'a'.toNat ≤ r.toNat ∧ r.toNat ≤ 'z'.toNat
    · rw [if_pos h2]
      rw [ha, hz] at h2
      simp only [Char_eq_iff_toNat, ha, hA, ht, hT, hr, hR, hu, hUU, he, hE]
      rw [toNat_ofNat_ascii _ (by omega)]
      omega
    · rw [if_neg h2]
      rw [ha, hz] at h2
      simp only [Char_eq_iff_toNat, ht, hT, hr, hR, hu, hUU, he, hE]
      omega
  · rw [if_neg h1]
    have h := hU r (by omega)
    simp only [ne_eq, Char_eq_iff_toNat, ht, hT, hr, hR, hu, hUU, he, hE] at h ⊢
    omega

/-- The error `ParseLine` returns depends only on the token count and on the
expiration token. -/
theorem ParseLine_error (upperCase : Char → Char) (raw : String) :
    ∃ c, ParseLine upperCase raw = .ok (c,
      if (strings.Fields raw).length < 6 then some (.fieldCount (strings.Fields raw).length)
      else (strconv.ParseInt ((strings.Fields raw).getD 4 "")).2.map .timestamp) := by
  rw [ParseLine_eq]
  by_cases h6 : (strings.Fields raw).length < 6
  · rw [if_pos h6, if_pos h6]; exact ⟨_, rfl⟩
  · rw [if_neg h6, if_neg h6, ← tokens_getD raw 4 (by omega)]
    unfold ParseLine.outcome
    simp only [expirationIdx, Nat.reduceAdd]
    rcases strconv.ParseInt ((tokens raw).getD 4 "") with ⟨ts, e⟩
    cases e with
    | some e => exact ⟨_, rfl⟩
    | none =>
      simp only
      split <;> exact ⟨_, rfl⟩

theorem sampleUpperCase_spec (r : Char) (h : 0x7F < r.toNat) :
    sampleUpperCase r ≠ 'T' ∧ sampleUpperCase r ≠ 'R' ∧ sampleUpperCase r ≠ 'U' ∧
      sampleUpperCase r ≠ 'E' := by
  have key : ∀ x : Char, x.toNat < 128 → r ≠ x := by
    intro x hx hrx
    rw [hrx] at h
    omega
  unfold sampleUpperCase
  split_ifs
  · decide
  · decide
  · decide
  · exact ⟨key _ (by decide), key _ (by decide), key _ (by decide), key _ (by decide)⟩

theorem parseBool_eq_true_iff (upperCase : Char → Char) (s : String) :
    parseBool upperCase s = true ↔
      s.data.map (unicode.ToUpper upperCase) = ['T', 'R', 'U', 'E'] := by
  unfold parseBool strings.ToUpper
  rw [beq_iff_eq]
  constructor
  · intro h
    exact congrArg String.data h
  · intro h
    exact String.ext h

/-- C9. Boolean lenience: `parseBool(s)` is true exactly when `s` is the word
TRUE in some letter-casing (for case tables that map no rune above `MaxASCII`
to `T`, `R`, `U` or `E`, as those of Go do); every other token decodes to
false; and the error `ParseLine` returns does not depend on the secure token
(index 3). -/
theorem parseBool_lenient (upperCase : Char → Char)
    (hU : ∀ r : Char, 0x7F < r.toNat →
      upperCase r ≠ 'T' ∧ upperCase r ≠ 'R' ∧ upperCase r ≠ 'U' ∧ upperCase r ≠ 'E') :
    (∀ s, parseBool upperCase s = true ↔
        ∃ a b c d, s.data = [a, b, c, d] ∧ (a = 't' ∨ a = 'T') ∧ (b = 'r' ∨ b = 'R') ∧
          (c = 'u' ∨ c = 'U') ∧ (d = 'e' ∨ d = 'E')) ∧
      (parseBool upperCase "true" = true ∧ parseBool upperCase "True" = true ∧
        parseBool upperCase "TRUE" = true ∧ parseBool upperCase "tRuE" = true) ∧
      (parseBool upperCase "FALSE" = false ∧ parseBool upperCase "1" = false ∧
        parseBool upperCase "yes" = false ∧ parseBool upperCase "" = false ∧
        parseBool upperCase " TRUE" = false) ∧
      (∀ raw raw2, (strings.Fields raw).length = (strings.Fields raw2).length →
        (∀ i, i ≠ 3 → (strings.Fields raw)[i]? = (strings.Fields raw2)[i]?) →
        ∀ c e, ParseLine upperCase raw = .ok (c, e) →
          ∃ c2, ParseLine upperCase raw2 = .ok (c2, e)) := by
  refine ⟨?_, ⟨rfl, rfl, rfl, rfl⟩, ⟨rfl, rfl, rfl, rfl, rfl⟩, ?_⟩
  · intro s
    rw [parseBool_eq_true_iff]
    constructor
    · intro h
      rcases hs : s.data with _ | ⟨a, _ | ⟨b, _ | ⟨c, _ | ⟨d, _ | ⟨e, l⟩⟩⟩⟩⟩
      all_goals rw [hs] at h
      all_goals simp only [List.map_cons, List.map_nil] at h
      all_goals first | (simp at h; done) | skip
      injection h with h1 h
      injection h with h2 h
      injection h with h3 h
      injection h with h4 _
      exact ⟨a, b, c, d, rfl, (ToUpper_eq_iff upperCase hU a).1.1 h1,
        (ToUpper_eq_iff upperCase hU b).2.1.1 h2, (ToUpper_eq_iff upperCase hU c).2.2.1.1 h3,
        (ToUpper_eq_iff upperCase hU d).2.2.2.1 h4⟩
    · rintro ⟨a, b, c, d, hs, ha, hb, hc, hd⟩
      rw [hs]
      simp only [List.map_cons, List.map_nil]
      rw [(ToUpper_eq_iff upperCase hU a).1.2 ha, (ToUpper_eq_iff upperCase hU b).2.1.2 hb,
        (ToUpper_eq_iff upperCase hU c).2.2.1.2 hc, (ToUpper_eq_iff upperCase hU d).2.2.2.2 hd]
  · intro raw raw2 hlen htok c e hp
    obtain ⟨c1, h1⟩ := ParseLine_error upperCase raw
    obtain ⟨c2, h2⟩ := ParseLine_error upperCase raw2
    rw [h1] at hp
    injection hp with hp
    injection hp with _ he
    have h4 : (strings.Fields raw).getD 4 "" = (strings.Fields raw2).getD 4 "" := by
      simp only [List.getD_eq_getElem?_getD]
      rw [htok 4 (by decide)]
    rw [hlen, h4] at he
    rw [he] at h2
    exact ⟨c2, h2⟩

theorem parseBool_lenient_witness :
    parseBool sampleUpperCase "tRuE" = true ↔
      ∃ a b c d, "tRuE".data = [a, b, c, d] ∧ (a = 't' ∨ a = 'T') ∧ (b = 'r' ∨ b = 'R') ∧
        (c = 'u' ∨ c = 'U') ∧ (d = 'e' ∨ d = 'E') :=
  (parseBool_lenient sampleUpperCase sampleUpperCase_spec).1 "tRuE"

/-! ## Comments and blank lines -/

theorem skipped_of_blank (l : String) (h : isBlank l = true) : skipped l = true := by
  unfold isBlank at h
  have hd : (strings.TrimSpace l).data = [] := List.isEmpty_iff.1 h
  have e : strings.TrimSpace l = ⟨[]⟩ := String.ext hd
  unfold skipped
  rw [e]
  rfl

/-- A line that parses is never shorter than `fieldsCount` bytes. -/
theorem accepted_not_short (upperCase : Char → Char) (l : String) (c : Option Cookie)
    (h : ParseLine upperCase l = .ok (c, none)) :
    ¬ (strings.TrimSpace l).utf8ByteSize < fieldsCount := by
  obtain ⟨h6, _⟩ := ParseLine_ok_inv upperCase l c h
  have := strings.Fields_length_le l
  unfold fieldsCount
  omega

/-- In a stream of blank lines, comments and lines that parse, the lines
`Parse` passes over are the blank lines and the comments. -/
theorem skipped_iff (upperCase : Char → Char) (l : String)
    (h : isBlank l = true ∨ isComment l = true ∨ ∃ c, ParseLine upperCase l = .ok (some c, none)) :
    skipped l = (isBlank l || isComment l) := by
  cases hb : isBlank l with
  | true => rw [skipped_of_blank l hb]; rfl
  | false =>
    cases hc : isComment l with
    | true => simp [skipped, hc]
    | false =>
      rw [hb, hc] at h
      rcases h with h | h | ⟨c, h⟩
      · cases h
      · cases h
      · have := accepted_not_short upperCase l _ h
        simp [skipped, hc, this]

/-- The records of `Parse` on a stream of blank lines, comments and lines
that parse, from any state of the loop. -/
theorem loop_clean (upperCase : Char → Char) (scanErr : Option String) (lines : List String)
    (h : ∀ l ∈ lines, isBlank l = true ∨ isComment l = true ∨
      ∃ c, ParseLine upperCase l = .ok (some c, none))
    (line : Nat) (cl : List (Option Cookie)) :
    ∃ new, Parse.loop upperCase scanErr lines line cl
        = .ok (cl ++ new.map some, scanErr.map .scan) ∧
      List.Forall₂ (fun l c => ParseLine upperCase l = .ok (some c, none)) (dataLines lines) new := by
  induction lines generalizing line cl with
  | nil =>
    refine ⟨[], ?_, List.Forall₂.nil⟩
    rw [Parse.loop, List.map_nil, List.append_nil]
    rfl
  | cons text rest ih =>
    have hrest : ∀ l ∈ rest, isBlank l = true ∨ isComment l = true ∨
        ∃ c, ParseLine upperCase l = .ok (some c, none) :=
      fun l hl => h l (List.mem_cons_of_mem _ hl)
    have htext := h text (List.mem_cons_self _ _)
    have hsk := skipped_iff upperCase text htext
    rw [loop_cons]
    cases hs : skipped text with
    | true =>
      rw [hs] at hsk
      obtain ⟨new, h1, h2⟩ := ih hrest (line + 1) cl
      refine ⟨new, by simpa using h1, ?_⟩
      have e : dataLines (text :: rest) = dataLines rest := by
        unfold dataLines
        rw [List.filter_cons, ← hsk]
        rfl
      rw [e]; exact h2
    | false =>
      rw [hs] at hsk
      have hacc : ∃ c, ParseLine upperCase text = .ok (some c, none) := by
        rcases htext with hb | hc | hacc
        · rw [hb] at hsk; cases hsk
        · rw [hc, Bool.or_true] at hsk; cases hsk
        · exact hacc
      obtain ⟨c, hc⟩ := hacc
      obtain ⟨new, h1, h2⟩ := ih hrest (line + 1 + 1) (cl ++ [some c])
      refine ⟨c :: new, ?_, ?_⟩
      · simp only [Bool.false_eq_true, if_false, hc]
        rw [h1]
        simp
      · have e : dataLines (text :: rest) = text :: dataLines rest := by
          unfold dataLines
          rw [List.filter_cons, ← hsk]
          rfl
        rw [e]
        exact List.Forall₂.cons hc h2

theorem records_unique (upperCase : Char → Char) (ls : List String) (cl cl2 : List Cookie)
    (h1 : List.Forall₂ (fun l c => ParseLine upperCase l = .ok (some c, none)) ls cl)
    (h2 : List.Forall₂ (fun l c => ParseLine upperCase l = .ok (some c, none)) ls cl2) :
    cl = cl2 := by
  induction h1 generalizing cl2 with
  | nil => cases h2; rfl
  | cons hc _ ih =>
    cases h2 with
    | cons hc2 h2 =>
      rw [hc] at hc2
      injection hc2 with hc2
      injection hc2 with hc2 _
      injection hc2 with hc2
      rw [hc2, ih _ h2]

/-- C10. Comment and blank skipping with order preserved: on a stream in
which every line is blank, a comment, or a line `ParseLine` accepts, `Parse`
returns no parse error (its error is the scanner's own, nil after a clean
read) and exactly one record per data line, the record `ParseLine` gives for
that line, in the order of the lines; a second such stream with the same data
lines, whatever its blank and comment lines, gives the same records. -/
theorem Parse_skips_blank_and_comment (upperCase : Char → Char) (lines : List String)
    (scanErr : Option String)
    (h : ∀ l ∈ lines, isBlank l = true ∨ isComment l = true ∨
      ∃ c, ParseLine upperCase l = .ok (some c, none)) :
    ∃ cl, Parse upperCase ⟨lines, scanErr⟩ = .ok (cl.map some, scanErr.map .scan) ∧
      List.Forall₂ (fun l c => ParseLine upperCase l = .ok (some c, none)) (dataLines lines) cl ∧
      ∀ lines2 scanErr2,
        (∀ l ∈ lines2, isBlank l = true ∨ isComment l = true ∨
          ∃ c, ParseLine upperCase l = .ok (some c, none)) →
        dataLines lines2 = dataLines lines →
        Parse upperCase ⟨lines2, scanErr2⟩ = .ok (cl.map some, scanErr2.map .scan) := by
  obtain ⟨cl, h1, h2⟩ := loop_clean upperCase scanErr lines h 0 []
  refine ⟨cl, by simpa [Parse] using h1, h2, ?_⟩
  intro lines2 scanErr2 hl2 hd
  obtain ⟨cl2, h3, h4⟩ := loop_clean upperCase scanErr2 lines2 hl2 0 []
  rw [hd] at h4
  rw [records_unique upperCase _ _ _ h2 h4]
  simpa [Parse] using h3

theorem Parse_skips_blank_and_comment_witness :
    ∃ cl,
      Parse sampleUpperCase
          ⟨["# Netscape HTTP Cookie File", "",
            ".example.com\tTRUE\t/\tFALSE\t1999999999\tsession\tabc123", "  \t ", "# note",
            "#HttpOnly_.example.org\tFALSE\t/x\tTRUE\t0\tid\t42"], none⟩
        = .ok (cl.map some, none) ∧
      List.Forall₂ (fun l c => ParseLine sampleUpperCase l = .ok (some c, none))
        [".example.com\tTRUE\t/\tFALSE\t1999999999\tsession\tabc123",
          "#HttpOnly_.example.org\tFALSE\t/x\tTRUE\t0\tid\t42"] cl := by
  obtain ⟨cl, h1, h2, _⟩ := Parse_skips_blank_and_comment sampleUpperCase
    ["# Netscape HTTP Cookie File", "",
      ".example.com\tTRUE\t/\tFALSE\t1999999999\tsession\tabc123", "  \t ", "# note",
      "#HttpOnly_.example.org\tFALSE\t/x\tTRUE\t0\tid\t42"] none
    (by
      intro l hl
      simp only [List.mem_cons, List.mem_singleton, List.not_mem_nil, or_false] at hl
      rcases hl with rfl | rfl | rfl | rfl | rfl | rfl
      · exact Or.inr (Or.inl rfl)
      · exact Or.inl rfl
      · exact Or.inr (Or.inr ⟨_, rfl⟩)
      · exact Or.inl rfl
      · exact Or.inr (Or.inl rfl)
      · exact Or.inr (Or.inr ⟨_, rfl⟩))
  exact ⟨cl, h1, h2⟩

/-! ## The loop of `Parse`, line by line -/

/-- A prefix of lines each passed over or parsed: the loop goes through it,
counting every line once and every record once more. -/
theorem loop_prefix (upperCase : Char → Char) (scanErr : Option String)
    (pre rest : List String)
    (h : ∀ l ∈ pre, skipped l = true ∨ ∃ c, ParseLine upperCase l = .ok (some c, none))
    (line : Nat) (cl : List (Option Cookie)) :
    ∃ recs, Parse.loop upperCase scanErr (pre ++ rest) line cl
        = Parse.loop upperCase scanErr rest (line + pre.length + recs.length)
            (cl ++ recs.map some) ∧
      List.Forall₂ (fun l c => ParseLine upperCase l = .ok (some c, none))
        (pre.filter (fun l => !skipped l)) recs := by
  induction pre generalizing line cl with
  | nil =>
    refine ⟨[], ?_, List.Forall₂.nil⟩
    simp
  | cons text pre ih =>
    have hpre : ∀ l ∈ pre, skipped l = true ∨ ∃ c, ParseLine upperCase l = .ok (some c, none) :=
      fun l hl => h l (List.mem_cons_of_mem _ hl)
    rw [List.cons_append, loop_cons]
    cases hs : skipped text with
    | true =>
      obtain ⟨recs, h1, h2⟩ := ih hpre (line + 1) cl
      refine ⟨recs, ?_, ?_⟩
      · rw [if_pos rfl, h1, List.length_cons]
        congr 1
        omega
      · rw [List.filter_cons, hs]
        exact h2
    | false =>
      rcases h text (List.mem_cons_self _ _) with h0 | ⟨c, hc⟩
      · rw [hs] at h0; cases h0
      · obtain ⟨recs, h1, h2⟩ := ih hpre (line + 1 + 1) (cl ++ [some c])
        refine ⟨c :: recs, ?_, ?_⟩
        · simp only [Bool.false_eq_true, if_false, hc]
          rw [h1, List.length_cons, List.length_cons, List.map_cons, List.append_assoc]
          simp only [List.singleton_append]
          congr 1
          omega
        · rw [List.filter_cons, hs]
          exact List.Forall₂.cons hc h2

/-- A line that is not passed over and does not parse stops the loop with
the line-numbered error, the records unchanged. -/
theorem loop_fail (upperCase : Char → Char) (scanErr : Option String) (bad : String)
    (rest : List String) (line : Nat) (cl : List (Option Cookie)) (c0 : Option Cookie)
    (err : LineError) (hs : skipped bad = false)
    (hp : ParseLine upperCase bad = .ok (c0, some err)) :
    Parse.loop upperCase scanErr (bad :: rest) line cl
      = .ok (cl, some (.atLine (line + 1) err)) := by
  rw [loop_cons, hs, hp]
  rfl

/-- Every stream either goes through, or has a first line that is not passed
over and does not parse. -/
theorem first_failure (upperCase : Char → Char) (lines : List String) :
    (∀ l ∈ lines, skipped l = true ∨ ∃ c, ParseLine upperCase l = .ok (some c, none)) ∨
      ∃ pre bad post c0 err, lines = pre ++ bad :: post ∧
        (∀ l ∈ pre, skipped l = true ∨ ∃ c, ParseLine upperCase l = .ok (some c, none)) ∧
        skipped bad = false ∧ ParseLine upperCase bad = .ok (c0, some err) := by
  induction lines with
  | nil => left; simp
  | cons text rest ih =>
    have hgood : (skipped text = true ∨ ∃ c, ParseLine upperCase text = .ok (some c, none)) ∨
        (skipped text = false ∧ ∃ c0 err, ParseLine upperCase text = .ok (c0, some err)) := by
      cases hs : skipped text with
      | true => exact Or.inl (Or.inl rfl)
      | false =>
        obtain ⟨c, hc⟩ := ParseLine_error upperCase text
        generalize (if (strings.Fields text).length < 6 then
            some (LineError.fieldCount (strings.Fields text).length)
          else Option.map LineError.timestamp
            (strconv.ParseInt ((strings.Fields text).getD 4 "")).2) = e at hc
        cases e with
        | some err => exact Or.inr ⟨rfl, c, err, hc⟩
        | none =>
          obtain ⟨r, hr⟩ := ParseLine_ok_some upperCase text c hc
          rw [hr] at hc
          exact Or.inl (Or.inr ⟨r, hc⟩)
    rcases hgood with hg | ⟨hs, c0, err, hc⟩
    · rcases ih with hall | ⟨pre, bad, post, c0, err, hl, hpre, hs, hc⟩
      · left
        intro l hl
        rcases List.mem_cons.1 hl with rfl | hl
        · exact hg
        · exact hall l hl
      · right
        refine ⟨text :: pre, bad, post, c0, err, by rw [hl]; rfl, ?_, hs, hc⟩
        intro l hl
        rcases List.mem_cons.1 hl with rfl | hl
        · exact hg
        · exact hpre l hl
    · right
      exact ⟨[], text, rest, c0, err, rfl, by simp, hs, hc⟩

/-- The result of `Parse` on a stream that stops at its first failing line:
the records of the lines before it and the error with the value of the line
counter there. -/
theorem Parse_stops (upperCase : Char → Char) (scanErr : Option String)
    (pre : List String) (bad : String) (post : List String) (c0 : Option Cookie)
    (err : LineError)
    (hpre : ∀ l ∈ pre, skipped l = true ∨ ∃ c, ParseLine upperCase l = .ok (some c, none))
    (hs : skipped bad = false) (hp : ParseLine upperCase bad = .ok (c0, some err)) :
    ∃ recs, Parse upperCase ⟨pre ++ bad :: post, scanErr⟩
        = .ok (recs.map some, some (.atLine (pre.length + 1 + recs.length) err)) ∧
      List.Forall₂ (fun l c => ParseLine upperCase l = .ok (some c, none))
        (pre.filter (fun l => !skipped l)) recs := by
  obtain ⟨recs, h1, h2⟩ := loop_prefix upperCase scanErr pre (bad :: post) hpre 0 []
  refine ⟨recs, ?_, h2⟩
  unfold Parse
  simp only
  rw [h1, loop_fail upperCase scanErr bad post _ _ c0 err hs hp]
  simp only [List.nil_append, Nat.zero_add]
  congr 4
  omega

/-- The result of `Parse` on a stream without a failing line. -/
theorem Parse_goes_through (upperCase : Char → Char) (scanErr : Option String)
    (lines : List String)
    (h : ∀ l ∈ lines, skipped l = true ∨ ∃ c, ParseLine upperCase l = .ok (some c, none)) :
    ∃ recs, Parse upperCase ⟨lines, scanErr⟩ = .ok (recs.map some, scanErr.map .scan) ∧
      List.Forall₂ (fun l c => ParseLine upperCase l = .ok (some c, none))
        (lines.filter (fun l => !skipped l)) recs := by
  obtain ⟨recs, h1, h2⟩ := loop_prefix upperCase scanErr lines [] h 0 []
  refine ⟨recs, ?_, h2⟩
  unfold Parse
  simp only
  rw [← List.append_nil lines, h1, Parse.loop]
  simp only [List.nil_append]
  rfl

/-! ## Failures in `Parse` -/

/-- The counterexample to C11: after one valid line, a second line of two
fields and fewer than 7 bytes is passed over without an error, and a second
line of two fields that is long enough is reported as line 3, not 2. -/
theorem line_numbered_failure_counterexample :
    (∀ upperCase : Char → Char,
        Parse upperCase
            ⟨[".example.com\tTRUE\t/\tFALSE\t1999999999\tsession\tabc123", "a b"], none⟩
          = .ok ([some
              { Domain := ".example.com", HttpOnly := false, Path := "/", Secure := false,
                Expires := some 1999999999, Name := "session", Value := "abc123", MaxAge := 0,
                Raw := ".example.com\tTRUE\t/\tFALSE\t1999999999\tsession\tabc123" }], none)) ∧
      (∀ upperCase : Char → Char,
        Parse upperCase
            ⟨[".example.com\tTRUE\t/\tFALSE\t1999999999\tsession\tabc123", "aaaa bbbb"], none⟩
          = .ok ([some
              { Domain := ".example.com", HttpOnly := false, Path := "/", Secure := false,
                Expires := some 1999999999, Name := "session", Value := "abc123", MaxAge := 0,
                Raw := ".example.com\tTRUE\t/\tFALSE\t1999999999\tsession\tabc123" }],
            some (.atLine 3 (.fieldCount 2)))) :=
  ⟨fun _ => rfl, fun _ => rfl⟩

/-- C11, amended. Field-count failure in `Parse`: when the first `k-1` lines
are valid data lines and line `k` is not passed over (at least 7 bytes once
trimmed, not a comment) and has fewer than 6 fields, `Parse` returns exactly
the `k-1` records of the preceding lines, in order, with a line-numbered error
whose cause is the field-count error of line `k`. -/
theorem Parse_field_count_failure (upperCase : Char → Char) (valid : List String)
    (bad : String) (post : List String) (scanErr : Option String)
    (hvalid : ∀ l ∈ valid, skipped l = false ∧ ∃ c, ParseLine upperCase l = .ok (some c, none))
    (hs : skipped bad = false) (hcount : (strings.Fields bad).length < 6) :
    ∃ recs n, Parse upperCase ⟨valid ++ bad :: post, scanErr⟩
        = .ok (recs.map some, some (.atLine n (.fieldCount (strings.Fields bad).length))) ∧
      List.Forall₂ (fun l c => ParseLine upperCase l = .ok (some c, none)) valid recs ∧
      recs.length = valid.length := by
  have hp : ParseLine upperCase bad
      = .ok (none, some (.fieldCount (strings.Fields bad).length)) := by
    rw [ParseLine_eq, if_pos hcount]
  obtain ⟨recs, h1, h2⟩ := Parse_stops upperCase scanErr valid bad post _ _
    (fun l hl => Or.inr (hvalid l hl).2) hs hp
  have hf : valid.filter (fun l => !skipped l) = valid := by
    rw [List.filter_eq_self]
    intro l hl
    rw [(hvalid l hl).1]
    rfl
  rw [hf] at h2
  exact ⟨recs, _, h1, h2, h2.length_eq.symm⟩

theorem Parse_field_count_failure_witness :
    ∃ recs n,
      Parse sampleUpperCase
          ⟨[".example.com\tTRUE\t/\tFALSE\t1999999999\tsession\tabc123"]
            ++ "aaaa bbbb" :: ["#HttpOnly_.example.org\tFALSE\t/x\tTRUE\t0\tid\t42"], none⟩
        = .ok (recs.map some, some (.atLine n (.fieldCount 2))) ∧
      List.Forall₂ (fun l c => ParseLine sampleUpperCase l = .ok (some c, none))
        [".example.com\tTRUE\t/\tFALSE\t1999999999\tsession\tabc123"] recs ∧
      recs.length = 1 :=
  Parse_field_count_failure sampleUpperCase
    [".example.com\tTRUE\t/\tFALSE\t1999999999\tsession\tabc123"] "aaaa bbbb"
    ["#HttpOnly_.example.org\tFALSE\t/x\tTRUE\t0\tid\t42"] none
    (by
      intro l hl
      rw [List.mem_singleton.1 hl]
      exact ⟨rfl, _, rfl⟩)
    rfl (by decide)

/-- C12. Halt at first failure with partial results: when line `bad` is the
first line that is not passed over and makes `ParseLine` fail, `Parse` returns
a non-nil error, wrapping that failure, with exactly the records of the lines
before it that were not passed over, in order; the result is the same whatever
follows the failing line, and the failing line contributes no record. -/
theorem Parse_halts_at_first_failure (upperCase : Char → Char) (pre : List String)
    (bad : String) (c0 : Option Cookie) (err : LineError)
    (hpre : ∀ l ∈ pre, skipped l = true ∨ ∃ c, ParseLine upperCase l = .ok (some c, none))
    (hs : skipped bad = false) (hp : ParseLine upperCase bad = .ok (c0, some err)) :
    ∃ recs n,
      (∀ post scanErr, Parse upperCase ⟨pre ++ bad :: post, scanErr⟩
        = .ok (recs.map some, some (.atLine n err))) ∧
      List.Forall₂ (fun l c => ParseLine upperCase l = .ok (some c, none))
        (pre.filter (fun l => !skipped l)) recs := by
  obtain ⟨recs, _, h2⟩ := Parse_stops upperCase none pre bad [] c0 err hpre hs hp
  refine ⟨recs, pre.length + 1 + recs.length, ?_, h2⟩
  intro post scanErr
  obtain ⟨recs2, h3, h4⟩ := Parse_stops upperCase scanErr pre bad post c0 err hpre hs hp
  rw [records_unique upperCase _ _ _ h2 h4]
  exact h3

theorem Parse_halts_at_first_failure_witness :
    ∃ recs n,
      (∀ post scanErr,
        Parse sampleUpperCase
            ⟨["# Netscape HTTP Cookie File",
              ".example.com\tTRUE\t/\tFALSE\t1999999999\tsession\tabc123"]
              ++ ".example.com\tTRUE\t/\tFALSE\tnotanumber\tsession\tabc123" :: post, scanErr⟩
          = .ok (recs.map some,
              some (.atLine n (.timestamp ⟨"ParseInt", "notanumber", .ErrSyntax⟩)))) ∧
      List.Forall₂ (fun l c => ParseLine sampleUpperCase l = .ok (some c, none))
        [".example.com\tTRUE\t/\tFALSE\t1999999999\tsession\tabc123"] recs :=
  Parse_halts_at_first_failure sampleUpperCase
    ["# Netscape HTTP Cookie File", ".example.com\tTRUE\t/\tFALSE\t1999999999\tsession\tabc123"]
    ".example.com\tTRUE\t/\tFALSE\tnotanumber\tsession\tabc123" _ _
    (by
      intro l hl
      simp only [List.mem_cons, List.mem_singleton, List.not_mem_nil, or_false] at hl
      rcases hl with rfl | rfl
      · exact Or.inl rfl
      · exact Or.inr ⟨_, rfl⟩)
    rfl rfl

/-- The records `Parse` returns are those of the lines it did not pass over,
in order, among the lines it read. -/
theorem Parse_records (upperCase : Char → Char) (rd : Reader) (cl : List (Option Cookie))
    (err : Option ParseError) (h : Parse upperCase rd = .ok (cl, err)) :
    ∃ pre post recs, rd.lines = pre ++ post ∧ cl = recs.map some ∧
      List.Forall₂ (fun l c => ParseLine upperCase l = .ok (some c, none))
        (pre.filter (fun l => !skipped l)) recs := by
  have hrd : rd = ⟨rd.lines, rd.err⟩ := rfl
  rcases first_failure upperCase rd.lines with hall | ⟨pre, bad, post, c0, e, hl, hpre, hs, hp⟩
  · obtain ⟨recs, h1, h2⟩ := Parse_goes_through upperCase rd.err rd.lines hall
    rw [hrd, h1] at h
    injection h with h
    injection h with h _
    exact ⟨rd.lines, [], recs, by simp, h.symm, h2⟩
  · obtain ⟨recs, h1, h2⟩ := Parse_stops upperCase rd.err pre bad post c0 e hpre hs hp
    rw [hrd, hl, h1] at h
    injection h with h
    injection h with h _
    exact ⟨pre, bad :: post, recs, hl, h.symm, h2⟩

/-- The counterexample to C13: a trimmed line of 6 characters that takes 12
bytes is not passed over; it is handed to `ParseLine`, which fails. -/
theorem short_line_counterexample :
    (strings.TrimSpace "éééééé").length = 6 ∧
      (strings.TrimSpace "éééééé").utf8ByteSize = 12 ∧
      ∀ upperCase : Char → Char,
        Parse upperCase ⟨["éééééé"], none⟩ = .ok ([], some (.atLine 1 (.fieldCount 1))) :=
  ⟨by decide, by decide, fun _ => rfl⟩

theorem utf8ByteSize_ascii (l : List Char) (h : ∀ c ∈ l, c.toNat < 128) :
    String.utf8ByteSize.go l = l.length := by
  induction l with
  | nil => rfl
  | cons c cs ih =>
    have hc : c.utf8Size = 1 := by
      have := h c (List.mem_cons_self _ _)
      unfold Char.utf8Size
      have hv : c.val.toNat = c.toNat := rfl
      rw [if_pos (by
        show c.val.toNat ≤ 127
        omega)]
    simp only [String.utf8ByteSize.go, List.length_cons,
      ih (fun x hx => h x (List.mem_cons_of_mem _ hx)), hc]

/-- C13, amended. Short lines are ignored: a line whose trimmed text is
shorter than 7 bytes (for ASCII text, 7 characters) is passed over by `Parse`
without error and without a record, and without a call of `ParseLine`: the
loop goes on with the next line; a stream of such lines only gives no record
and no parse error. -/
theorem Parse_ignores_short_lines (upperCase : Char → Char) (scanErr : Option String) :
    (∀ text rest line cl, (strings.TrimSpace text).utf8ByteSize < 7 →
        Parse.loop upperCase scanErr (text :: rest) line cl
          = Parse.loop upperCase scanErr rest (line + 1) cl) ∧
      (∀ lines, (∀ l ∈ lines, (strings.TrimSpace l).utf8ByteSize < 7) →
        Parse upperCase ⟨lines, scanErr⟩ = .ok ([], scanErr.map .scan)) ∧
      (∀ text, (∀ c ∈ (strings.TrimSpace text).data, c.toNat < 128) →
        (strings.TrimSpace text).length < 7 → (strings.TrimSpace text).utf8ByteSize < 7) := by
  have hsk : ∀ text, (strings.TrimSpace text).utf8ByteSize < 7 → skipped text = true := by
    intro text h
    unfold skipped fieldsCount
    rw [decide_eq_true h]
    rfl
  refine ⟨?_, ?_, ?_⟩
  · intro text rest line cl h
    rw [loop_cons, if_pos (hsk text h)]
  · intro lines h
    obtain ⟨recs, h1, h2⟩ := Parse_goes_through upperCase scanErr lines
      (fun l hl => Or.inl (hsk l (h l hl)))
    have hf : lines.filter (fun l => !skipped l) = [] := by
      rw [List.filter_eq_nil_iff]
      intro l hl
      rw [hsk l (h l hl)]
      simp
    rw [hf] at h2
    cases h2
    exact h1
  · intro text hascii hlen
    have e : (strings.TrimSpace text).utf8ByteSize = (strings.TrimSpace text).data.length := by
      cases hts : strings.TrimSpace text with
      | mk l =>
        rw [hts] at hascii
        exact utf8ByteSize_ascii l hascii
    rw [e]
    exact hlen

theorem Parse_ignores_short_lines_witness :
    Parse sampleUpperCase ⟨["", "  a b  ", "# c", "abcdef"], none⟩ = .ok ([], none) :=
  (Parse_ignores_short_lines sampleUpperCase none).2.1 ["", "  a b  ", "# c", "abcdef"]
    (by decide)

/-! ## Lines that start with the marker -/

theorem go_some_head (f : Char → Bool) (rest cur : List Char) :
    ∃ t tl, strings.FieldsFunc.go f rest (some cur) = t :: tl ∧ cur <+: t := by
  induction rest generalizing cur with
  | nil => exact ⟨cur, [], rfl, List.prefix_refl _⟩
  | cons r rest ih =>
    rw [strings.FieldsFunc.go]
    cases hr : f r with
    | true => exact ⟨cur, strings.FieldsFunc.go f rest none, by simp, List.prefix_refl _⟩
    | false =>
      obtain ⟨t, tl, h1, h2⟩ := ih (cur ++ [r])
      refine ⟨t, tl, by simpa using h1, ?_⟩
      exact (List.prefix_append cur [r]).trans h2

/-- When the trimmed line starts with `#HttpOnly_`, so does its first token. -/
theorem first_token_marker (l : String)
    (h : strings.HasPrefix (strings.TrimSpace l) httpOnlyPrefix = true) :
    strings.HasPrefix ((strings.Fields l).headD "") httpOnlyPrefix = true := by
  have hP : ∀ c ∈ httpOnlyPrefix.data, unicode.IsSpace c = false := by decide
  obtain ⟨rest, hrest⟩ := List.isPrefixOf_iff_prefix.1 h
  rw [← strings.Fields_TrimSpace]
  unfold strings.Fields
  rw [← hrest, strings.go_token_none unicode.IsSpace _ rest (by decide) hP]
  obtain ⟨t, tl, h1, h2⟩ := go_some_head unicode.IsSpace rest httpOnlyPrefix.data
  rw [h1]
  exact List.isPrefixOf_iff_prefix.2 h2

/-- A parsed record has `HttpOnly` set exactly when the first token starts
with the marker. -/
theorem ParseLine_HttpOnly (upperCase : Char → Char) (raw : String) (c : Cookie)
    (h : ParseLine upperCase raw = .ok (some c, none)) :
    c.HttpOnly = strings.HasPrefix ((strings.Fields raw).headD "") httpOnlyPrefix ∧
      c.Raw = raw := by
  obtain ⟨h6, v, hv⟩ := ParseLine_ok_inv upperCase raw _ h
  rw [ParseLine_eq, if_neg (by omega), outcome_ok upperCase raw _ v hv] at h
  injection h with h
  injection h with h _
  injection h with h
  subst h
  rw [tokens_getD raw 0 (by omega), getD_zero_eq_headD]
  exact ⟨rfl, rfl⟩

/-- C14. HttpOnly lines are data, not comments: a line whose trimmed text
begins with `#` is passed over by `Parse` exactly when it does not begin with
`#HttpOnly_`; when it does and the line parses, the record has
`HttpOnly = true`; so every record `Parse` returns for a line starting with `#`
has `HttpOnly = true`. -/
theorem Parse_HttpOnly_lines (upperCase : Char → Char) :
    (∀ l, (strings.TrimSpace l).data.head? = some '#' →
        (skipped l = true ↔ strings.HasPrefix (strings.TrimSpace l) httpOnlyPrefix = false)) ∧
      (∀ l c, strings.HasPrefix (strings.TrimSpace l) httpOnlyPrefix = true →
        ParseLine upperCase l = .ok (some c, none) → c.HttpOnly = true) ∧
      (∀ rd cl err, Parse upperCase rd = .ok (cl, err) →
        ∃ ls recs, ls.Sublist rd.lines ∧ cl = recs.map some ∧
          List.Forall₂ (fun l c => ParseLine upperCase l = .ok (some c, none) ∧
            ((strings.TrimSpace l).data.head? = some '#' → c.HttpOnly = true)) ls recs) := by
  have hskip : ∀ l, (strings.TrimSpace l).data.head? = some '#' →
      (skipped l = true ↔ strings.HasPrefix (strings.TrimSpace l) httpOnlyPrefix = false) := by
    intro l hh
    cases hp : strings.HasPrefix (strings.TrimSpace l) httpOnlyPrefix with
    | false =>
      refine ⟨fun _ => rfl, fun _ => ?_⟩
      simp [skipped, isComment, hh, hp]
    | true =>
      refine ⟨fun hs => ?_, fun hf => by cases hf⟩
      exfalso
      have h1 := (List.isPrefixOf_iff_prefix.1 hp).length_le
      have h2 := strings.utf8ByteSize_ge (strings.TrimSpace l)
      have h3 : httpOnlyPrefix.data.length = 10 := rfl
      simp only [skipped, isComment, hp, fieldsCount, Bool.not_true, Bool.and_false,
        Bool.or_false, decide_eq_true_eq] at hs
      omega
  have hflag : ∀ l c, strings.HasPrefix (strings.TrimSpace l) httpOnlyPrefix = true →
      ParseLine upperCase l = .ok (some c, none) → c.HttpOnly = true := by
    intro l c hp hc
    rw [(ParseLine_HttpOnly upperCase l c hc).1]
    exact first_token_marker l hp
  refine ⟨hskip, hflag, ?_⟩
  intro rd cl err h
  obtain ⟨pre, post, recs, hl, hcl, hf⟩ := Parse_records upperCase rd cl err h
  refine ⟨pre.filter (fun l => !skipped l), recs, ?_, hcl, ?_⟩
  · rw [hl]
    exact (List.filter_sublist _).trans (List.sublist_append_left _ _)
  · have key : ∀ (ls : List String) (rs : List Cookie),
        List.Forall₂ (fun l c => ParseLine upperCase l = .ok (some c, none)) ls rs →
        (∀ l ∈ ls, skipped l = false) →
        List.Forall₂ (fun l c => ParseLine upperCase l = .ok (some c, none) ∧
          ((strings.TrimSpace l).data.head? = some '#' → c.HttpOnly = true)) ls rs := by
      intro ls rs hfr
      induction hfr with
      | nil => intro _; exact List.Forall₂.nil
      | cons hc _ ih =>
        intro hmem
        refine List.Forall₂.cons ⟨hc, ?_⟩ (ih (fun l hl => hmem l (List.mem_cons_of_mem _ hl)))
        intro hh
        have hs := hmem _ (List.mem_cons_self _ _)
        cases hp : strings.HasPrefix (strings.TrimSpace _) httpOnlyPrefix with
        | true => exact hflag _ _ hp hc
        | false =>
          rw [(hskip _ hh).2 hp] at hs
          cases hs
    refine key _ _ hf ?_
    intro l hl
    have := (List.mem_filter.1 hl).2
    simpa using this

theorem Parse_HttpOnly_lines_witness :
    ∃ ls recs,
      ls.Sublist
        ["# Netscape HTTP Cookie File",
          "#HttpOnly_.example.org\tFALSE\t/x\tTRUE\t0\tid\t42"] ∧
      [some ({ Domain := ".example.org", HttpOnly := true, Path := "/x", Secure := true,
               Expires := some 0, Name := "id", Value := "42", MaxAge := 0,
               Raw := "#HttpOnly_.example.org\tFALSE\t/x\tTRUE\t0\tid\t42" } : Cookie)]
        = recs.map some ∧
      List.Forall₂ (fun l c => ParseLine sampleUpperCase l = .ok (some c, none) ∧
        ((strings.TrimSpace l).data.head? = some '#' → c.HttpOnly = true)) ls recs :=
  (Parse_HttpOnly_lines sampleUpperCase).2.2
    ⟨["# Netscape HTTP Cookie File", "#HttpOnly_.example.org\tFALSE\t/x\tTRUE\t0\tid\t42"], none⟩
    _ none rfl

/-! ## Extra fields and the raw line -/

/-- The outcome of a token slice reads the tokens at indices 0 to 6 only, and
the line only for `Raw`. -/
theorem outcome_congr (upperCase : Char → Char) (raw raw2 : String) (g g2 : List String)
    (h : ∀ i, i ≤ 6 → g2.getD i "" = g.getD i "") :
    ParseLine.outcome upperCase raw2 g2 =
      ((ParseLine.outcome upperCase raw g).1.map (fun c => { c with Raw := raw2 }),
        (ParseLine.outcome upperCase raw g).2) := by
  unfold ParseLine.outcome
  simp only [expirationIdx, domainIdx, pathIdx, secureIdx, nameIdx, valueIdx, Nat.reduceAdd]
  rw [h 0 (by omega), h 2 (by omega), h 3 (by omega), h 4 (by omega), h 5 (by omega),
    h 6 (by omega)]
  rcases strconv.ParseInt (g.getD 4 "") with ⟨ts, e⟩
  cases e with
  | some e => rfl
  | none =>
    simp only
    cases strings.HasPrefix (g.getD 0 "") httpOnlyPrefix <;> rfl

theorem outcome_fst_some (upperCase : Char → Char) (raw : String) (g : List String) :
    ∃ c, (ParseLine.outcome upperCase raw g).1 = some c ∧
      ∀ k, (ParseLine.outcome upperCase raw g).2 ≠ some (.fieldCount k) := by
  unfold ParseLine.outcome
  rcases strconv.ParseInt (g.getD expirationIdx "") with ⟨ts, e⟩
  cases e with
  | some e => exact ⟨_, rfl, fun k hk => by cases hk⟩
  | none =>
    simp only
    split <;> exact ⟨_, rfl, fun k hk => by cases hk⟩

/-- C15. Extra fields are ignored: a line with more than 7 tokens is not
rejected by field count, and it returns the same error (or none) and the
same record, `Raw` apart, as any line whose tokens are its first 7 tokens. -/
theorem ParseLine_extra_fields (upperCase : Char → Char) (raw raw7 : String)
    (h : 7 < (strings.Fields raw).length)
    (h7 : strings.Fields raw7 = (strings.Fields raw).take 7) :
    ∃ c e, ParseLine upperCase raw = .ok (some c, e) ∧
      (∀ k, e ≠ some (.fieldCount k)) ∧
      ParseLine upperCase raw7 = .ok (some { c with Raw := raw7 }, e) := by
  have hlen7 : (strings.Fields raw7).length = 7 := by
    rw [h7, List.length_take]; omega
  obtain ⟨c, hc, hk⟩ := outcome_fst_some upperCase raw (strings.Fields raw)
  have hcongr := outcome_congr upperCase raw raw7 (strings.Fields raw) (strings.Fields raw7)
    (by
      intro i hi
      rw [h7]
      simp only [List.getD_eq_getElem?_getD]
      rw [List.getElem?_take_of_lt (by omega)])
  refine ⟨c, (ParseLine.outcome upperCase raw (strings.Fields raw)).2, ?_, hk, ?_⟩
  · rw [ParseLine_eq, if_neg (by omega), tokens_of_seven raw (by omega), ← hc]
  · rw [ParseLine_eq, if_neg (by omega), tokens_of_seven raw7 (by omega), hcongr, hc]
    rfl

theorem ParseLine_extra_fields_witness :
    ∃ c e,
      ParseLine sampleUpperCase
          ".example.com\tTRUE\t/\tFALSE\t1999999999\tsession\tabc123\textra\tmore"
        = .ok (some c, e) ∧
      (∀ k, e ≠ some (.fieldCount k)) ∧
      ParseLine sampleUpperCase ".example.com TRUE / FALSE 1999999999 session abc123"
        = .ok (some { c with Raw := ".example.com TRUE / FALSE 1999999999 session abc123" }, e) :=
  ParseLine_extra_fields sampleUpperCase
    ".example.com\tTRUE\t/\tFALSE\t1999999999\tsession\tabc123\textra\tmore"
    ".example.com TRUE / FALSE 1999999999 session abc123" (by decide) (by decide)

/-- C16. Raw is the untouched line: a record of `ParseLine` has the input
string as `Raw`, and the records of `Parse` have as `Raw`, in order, the
lines it did not pass over among the lines it read, untrimmed. -/
theorem Raw_is_the_line (upperCase : Char → Char) :
    (∀ raw c, ParseLine upperCase raw = .ok (some c, none) → c.Raw = raw) ∧
      (∀ rd cl err, Parse upperCase rd = .ok (cl, err) →
        ∃ (pre post : List String) (recs : List Cookie),
          rd.lines = pre ++ post ∧ cl = recs.map some ∧
          recs.map Cookie.Raw = pre.filter (fun l => !skipped l)) := by
  refine ⟨fun raw c h => (ParseLine_HttpOnly upperCase raw c h).2, ?_⟩
  intro rd cl err h
  obtain ⟨pre, post, recs, hl, hcl, hf⟩ := Parse_records upperCase rd cl err h
  refine ⟨pre, post, recs, hl, hcl, ?_⟩
  have key : ∀ (ls : List String) (rs : List Cookie),
      List.Forall₂ (fun l c => ParseLine upperCase l = .ok (some c, none)) ls rs →
      rs.map Cookie.Raw = ls := by
    intro ls rs hfr
    induction hfr with
    | nil => rfl
    | cons hc _ ih =>
      rw [List.map_cons, ih, (ParseLine_HttpOnly upperCase _ _ hc).2]
  exact key _ _ hf

theorem Raw_is_the_line_witness :
    ∃ (pre post : List String) (recs : List Cookie),
      ["", "  .example.com\tTRUE\t/\tFALSE\t1999999999\tsession\tabc123 \t"] = pre ++ post ∧
      [some ({ Domain := ".example.com", HttpOnly := false, Path := "/", Secure := false,
               Expires := some 1999999999, Name := "session", Value := "abc123", MaxAge := 0,
               Raw := "  .example.com\tTRUE\t/\tFALSE\t1999999999\tsession\tabc123 \t" }
            : Cookie)]
        = recs.map some ∧
      recs.map Cookie.Raw = pre.filter (fun l => !skipped l) :=
  (Raw_is_the_line sampleUpperCase).2
    ⟨["", "  .example.com\tTRUE\t/\tFALSE\t1999999999\tsession\tabc123 \t"], none⟩ _ none rfl

/-! ## Safety, the length filter and the line counter -/

/-- C17. Indexing is always in bounds: once the field-count check is passed
the token slice has at least 7 tokens, on such a slice no index or slice
expression of `ParseLine` is out of range, and `trimed[0]` is reached only for
a non-empty trimmed line; `ParseLine` and `Parse` never panic. -/
theorem never_panics (upperCase : Char → Char) :
    (∀ raw, 6 ≤ (strings.Fields raw).length → 7 ≤ (tokens raw).length) ∧
      (∀ raw f, 7 ≤ f.length → ∃ r, ParseLine.build upperCase raw f = .ok r) ∧
      (∀ s, strings.HasPrefix s httpOnlyPrefix = true →
        ∃ d, sliceFrom s httpOnlyPrefix.utf8ByteSize = .ok d) ∧
      (∀ raw, ∃ c e, ParseLine upperCase raw = .ok (c, e)) ∧
      (∀ l, ¬ (strings.TrimSpace l).utf8ByteSize < fieldsCount →
        (strings.TrimSpace l).data ≠ []) ∧
      (∀ rd, ∃ cl e, Parse upperCase rd = .ok (cl, e)) := by
  refine ⟨tokens_length, fun raw f hf => ⟨_, build_eq upperCase raw f hf⟩,
    fun s hs => ⟨_, sliceFrom_eq s hs⟩, ?_, ?_, ?_⟩
  · intro raw
    obtain ⟨c, hc⟩ := ParseLine_error upperCase raw
    exact ⟨c, _, hc⟩
  · intro l hl hd
    apply hl
    have e : strings.TrimSpace l = ⟨[]⟩ := String.ext hd
    rw [e]
    decide
  · intro rd
    have hrd : rd = ⟨rd.lines, rd.err⟩ := rfl
    rcases first_failure upperCase rd.lines with hall | ⟨pre, bad, post, c0, e, hl, hpre, hs, hp⟩
    · obtain ⟨recs, h1, _⟩ := Parse_goes_through upperCase rd.err rd.lines hall
      rw [hrd]
      exact ⟨_, _, h1⟩
    · obtain ⟨recs, h1, _⟩ := Parse_stops upperCase rd.err pre bad post c0 e hpre hs hp
      rw [hrd, hl]
      exact ⟨_, _, h1⟩

theorem Fields_length_le_chars (s : String) :
    2 * (strings.Fields s).length ≤ (strings.TrimSpace s).length + 1 := by
  have h1 := (strings.go_length_le unicode.IsSpace (strings.TrimSpace s).data).1
  have h3 : (strings.Fields (strings.TrimSpace s)).length = (strings.Fields s).length := by
    rw [strings.Fields_TrimSpace]
  simp only [strings.Fields, List.length_map] at h3 ⊢
  show _ ≤ (strings.TrimSpace s).data.length + 1
  omega

/-- C18. The length filter never discards a parseable line: a line that
parses has at least 11 characters (and bytes) once trimmed, and every line
shorter than 7 bytes once trimmed fails `ParseLine` with the field-count
error. -/
theorem length_filter_is_safe (upperCase : Char → Char) :
    (∀ raw c, ParseLine upperCase raw = .ok (c, none) →
        11 ≤ (strings.TrimSpace raw).length ∧ 11 ≤ (strings.TrimSpace raw).utf8ByteSize) ∧
      (∀ raw, (strings.TrimSpace raw).utf8ByteSize < fieldsCount →
        (strings.Fields raw).length < 6 ∧
          ParseLine upperCase raw
            = .ok (none, some (.fieldCount (strings.Fields raw).length))) := by
  constructor
  · intro raw c h
    obtain ⟨h6, _⟩ := ParseLine_ok_inv upperCase raw c h
    have h1 := Fields_length_le_chars raw
    have h2 := strings.Fields_length_le raw
    constructor <;> omega
  · intro raw h
    have h2 := strings.Fields_length_le raw
    have h6 : (strings.Fields raw).length < 6 := by
      unfold fieldsCount at h
      omega
    exact ⟨h6, by rw [ParseLine_eq, if_pos h6]⟩

/-- C19. Reported line number: when `Parse` stops with a parse error, the
failing line is at some position `p` (1-based) of the stream, every line
before it was passed over or parsed, and the line number in the error is
`p + r` for the `r` records returned, which is `p` only when `r = 0`; the
message reads `cookiestxt line:<p + r>, err:<cause>`. -/
theorem reported_line_number (upperCase : Char → Char) (quote : String → String) (rd : Reader)
    (cl : List (Option Cookie)) (n : Nat) (e : LineError)
    (h : Parse upperCase rd = .ok (cl, some (.atLine n e))) :
    ∃ pre bad post c0, rd.lines = pre ++ bad :: post ∧
      (∀ l ∈ pre, skipped l = true ∨ ∃ c, ParseLine upperCase l = .ok (some c, none)) ∧
      skipped bad = false ∧ ParseLine upperCase bad = .ok (c0, some e) ∧
      n = (pre.length + 1) + cl.length ∧
      (n = pre.length + 1 ↔ cl = []) ∧
      (ParseError.atLine n e).Error quote
        = "cookiestxt line:" ++ toString ((pre.length + 1) + cl.length) ++ ", err:"
            ++ e.Error quote := by
  have hrd : rd = ⟨rd.lines, rd.err⟩ := rfl
  rcases first_failure upperCase rd.lines with hall | ⟨pre, bad, post, c0, e2, hl, hpre, hs, hp⟩
  · exfalso
    obtain ⟨recs, h1, _⟩ := Parse_goes_through upperCase rd.err rd.lines hall
    rw [hrd, h1] at h
    injection h with h
    injection h with _ h
    cases hrr : rd.err with
    | none => rw [hrr] at h; cases h
    | some m =>
      rw [hrr] at h
      injection h with h
      cases h
  · obtain ⟨recs, h1, _⟩ := Parse_stops upperCase rd.err pre bad post c0 e2 hpre hs hp
    rw [hrd, hl, h1] at h
    injection h with h
    injection h with hcl herr
    injection herr with herr
    injection herr with hn he
    subst he
    have hlen : cl.length = recs.length := by rw [← hcl, List.length_map]
    have hn2 : n = (pre.length + 1) + cl.length := by rw [hlen, ← hn]
    refine ⟨pre, bad, post, c0, hl, hpre, hs, hp, hn2, ?_, ?_⟩
    · rw [hn2]
      constructor
      · intro h0
        exact List.length_eq_zero.1 (by omega)
      · intro h0
        rw [h0]; rfl
    · rw [hn2]; rfl

theorem reported_line_number_witness :
    ∃ pre bad post c0,
      [".example.com\tTRUE\t/\tFALSE\t1999999999\tsession\tabc123", "aaaa bbbb"]
        = pre ++ bad :: post ∧
      (∀ l ∈ pre, skipped l = true ∨ ∃ c, ParseLine sampleUpperCase l = .ok (some c, none)) ∧
      skipped bad = false ∧ ParseLine sampleUpperCase bad = .ok (c0, some (.fieldCount 2)) ∧
      3 = (pre.length + 1) + 1 ∧
      (3 = pre.length + 1 ↔
        [some ({ Domain := ".example.com", HttpOnly := false, Path := "/", Secure := false,
                 Expires := some 1999999999, Name := "session", Value := "abc123", MaxAge := 0,
                 Raw := ".example.com\tTRUE\t/\tFALSE\t1999999999\tsession\tabc123" }
              : Cookie)] = []) ∧
      (ParseError.atLine 3 (.fieldCount 2)).Error (fun s => s)
        = "cookiestxt line:" ++ toString ((pre.length + 1) + 1) ++ ", err:"
            ++ (LineError.fieldCount 2).Error (fun s => s) :=
  reported_line_number sampleUpperCase (fun s => s)
    ⟨[".example.com\tTRUE\t/\tFALSE\t1999999999\tsession\tabc123", "aaaa bbbb"], none⟩
    [some { Domain := ".example.com", HttpOnly := false, Path := "/", Secure := false,
            Expires := some 1999999999, Name := "session", Value := "abc123", MaxAge := 0,
            Raw := ".example.com\tTRUE\t/\tFALSE\t1999999999\tsession\tabc123" }]
    3 (.fieldCount 2) rfl

end Cookiestxt
